import Mathlib

/-!
# dune-localfunctions: the polynomial basis façade and the monomial interpolation

A shallow embedding of

* `dune/finiteelements/generic/polynomialbasis.hh`
  (`PolynomialBasis`, `PolynomialBasisWithMatrix`),
* `dune/finiteelements/monom/monomlocalinterpolation.hh`
  (`MonomLocalInterpolation`),
* `dune/finiteelements/test/testfem.cc` (`LocalFEFunction`),
* `dune/localfunctions/lagrange/p0/p0localinterpolation.hh` (`P0LocalInterpolation`),
* `dune/localfunctions/brezzidouglasmarini/brezzidouglasmarini1cube2d/`
  `brezzidouglasmarini1cube2dlocalbasis.hh` (`BDM1Cube2DLocalBasis`).

Conventions.

* The field types of the templates are taken to be the rationals: arithmetic is exact.
  What a computation in `double` returns up to a tolerance is outside this embedding.
  `BDM1Cube2DLocalBasis` is kept generic in its range field, so that its shape functions can
  also be read as polynomials in the coordinates.
* `std::vector< FieldVector< F, n > >` is a `Buffer`: a list of entries, each entry the
  flat list of the `n` scalars of one basis function.
* An `assert` that fails is the result `none`; a `DUNE_THROW` is `Except.error`.
* The template parameters `Eval` and `CM` of `PolynomialBasis` are records of operations
  (`EvaluatorOps`, `CoeffMatrixOps`), as the class is written against any evaluator and any
  coefficient matrix.  Where a concrete one is needed, the dense matrix and the monomial
  evaluator described in the specification are used (`denseCoeffMatrix`,
  `monomialEvaluator`).
* `reinterpret_cast` between a vector of structured entries (`FieldMatrix`, nested
  `FieldVector`) and a vector of flat `FieldVector`s is the pair `List.flatten` / `reshape`:
  rows are stored one after the other.
-/

namespace Dune

/-! ## Machine integers -/

/-- Conversion of a C++ `int` to `unsigned int` (32 bit), as the comparison
`size<=coeffMatrix_.size()` and the assignment `this->size_ = size` perform it. -/
def toUnsigned (s : Int) : Nat := (s % 2 ^ 32).toNat

/-! ## Buffers -/

/-- The scalars of one basis function: a `FieldVector`, flattened. -/
abbrev Entry := List ℚ

/-- An output buffer `std::vector< FieldVector<...> >`. -/
abbrev Buffer := List Entry

/-! ## The template parameters of `PolynomialBasis` -/

/-- What `PolynomialBasis` uses of its template parameter `CM` (documented in the class
comment: `void mult( val, y )`), together with the default constructor, `size()` and `fill`
used by `PolynomialBasisWithMatrix`.  `multSingle deriv` is `mult<deriv>`. -/
structure CoeffMatrixOps (CM FM Raw : Type) where
  /-- `static const unsigned int blockSize` -/
  blockSize : Nat
  /-- default constructor -/
  empty : CM
  /-- `size()` -/
  size : CM → Nat
  /-- `fill(matrix)` -/
  fill : CM → FM → CM
  /-- `mult( x, y )`: transforms the raw buffer `x` into the output buffer `y` -/
  mult : CM → Raw → Buffer → Buffer
  /-- `mult<deriv>( x, y )` -/
  multSingle : Nat → CM → Raw → Buffer → Buffer

/-- What `PolynomialBasis` uses of its template parameter `Eval`: construction from a basis,
the order of the basis, `evaluate<deriv>( x )` and `integrate()`. The iterator returned by
the evaluator is the raw buffer `Raw`. -/
structure EvaluatorOps (Basis Ev Dom Raw : Type) where
  /-- `static const int dimension` -/
  dimension : Nat
  /-- `static const int dimRange` -/
  dimRange : Nat
  /-- `Evaluator(basis)` -/
  create : Basis → Ev
  /-- `basis.order()` -/
  order : Basis → Nat
  /-- `evaluate<deriv>( x )` -/
  evaluate : Nat → Ev → Dom → Raw
  /-- `integrate()` -/
  integrate : Ev → Raw

/-! ## `PolynomialBasis` -/

/-- The data members of `PolynomialBasis`. `coeffMatrix_` is a pointer in the source; here it
is the matrix pointed to. -/
structure PolynomialBasis (CM Ev : Type) where
  coeffMatrix_ : CM
  eval_ : Ev
  order_ : Nat
  size_ : Nat

section Basis

variable {CM FM Raw Basis Ev Dom : Type}

/-- The constructor `PolynomialBasis(basis, coeffMatrix, size)` with its assertion
`size_ <= coeffMatrix.size()`. -/
def PolynomialBasis.create (cm : CoeffMatrixOps CM FM Raw) (ev : EvaluatorOps Basis Ev Dom Raw)
    (basis : Basis) (coeffMatrix : CM) (size : Nat) : Option (PolynomialBasis CM Ev) :=
  if size ≤ cm.size coeffMatrix then
    some { coeffMatrix_ := coeffMatrix, eval_ := ev.create basis, order_ := ev.order basis,
           size_ := size }
  else none

/-- `order()` -/
def PolynomialBasis.order (b : PolynomialBasis CM Ev) : Nat := b.order_

/-- `size()` -/
def PolynomialBasis.size (b : PolynomialBasis CM Ev) : Nat := b.size_

/-- `evaluate<deriv>( x, values )` -/
def PolynomialBasis.evaluate (cm : CoeffMatrixOps CM FM Raw) (ev : EvaluatorOps Basis Ev Dom Raw)
    (deriv : Nat) (b : PolynomialBasis CM Ev) (x : Dom) (values : Buffer) : Option Buffer :=
  if b.size ≤ values.length then
    some (cm.mult b.coeffMatrix_ (ev.evaluate deriv b.eval_ x) values)
  else none

/-- `evaluateSingle<deriv>( x, values )` -/
def PolynomialBasis.evaluateSingle (cm : CoeffMatrixOps CM FM Raw)
    (ev : EvaluatorOps Basis Ev Dom Raw)
    (deriv : Nat) (b : PolynomialBasis CM Ev) (x : Dom) (values : Buffer) : Option Buffer :=
  if b.size ≤ values.length then
    some (cm.multSingle deriv b.coeffMatrix_ (ev.evaluate deriv b.eval_ x) values)
  else none

/-- The order 0 overload `evaluate( x, values )` for
`std::vector< FieldVector< Fy, dimRange > >`: it calls `evaluateSingle<0>`. -/
def PolynomialBasis.evaluate0 (cm : CoeffMatrixOps CM FM Raw) (ev : EvaluatorOps Basis Ev Dom Raw)
    (b : PolynomialBasis CM Ev) (x : Dom) (values : Buffer) : Option Buffer :=
  PolynomialBasis.evaluateSingle cm ev 0 b x values

/-- `integrate( values )` -/
def PolynomialBasis.integrate (cm : CoeffMatrixOps CM FM Raw) (ev : EvaluatorOps Basis Ev Dom Raw)
    (b : PolynomialBasis CM Ev) (values : Buffer) : Option Buffer :=
  if b.size ≤ values.length then
    some (cm.mult b.coeffMatrix_ (ev.integrate b.eval_) values)
  else none

/-! ## `PolynomialBasisWithMatrix` -/

/-- The constructor `PolynomialBasisWithMatrix(basis)`: `Base(basis,coeffMatrix_,0)` and the
default constructed member `coeffMatrix_`. The assertion of the base constructor compares
`0 <= coeffMatrix.size()` on unsigned numbers and cannot fail. -/
def PolynomialBasisWithMatrix.create (cm : CoeffMatrixOps CM FM Raw)
    (ev : EvaluatorOps Basis Ev Dom Raw) (basis : Basis) : PolynomialBasis CM Ev :=
  { coeffMatrix_ := cm.empty, eval_ := ev.create basis, order_ := ev.order basis, size_ := 0 }

/-- `fill( matrix )` -/
def PolynomialBasisWithMatrix.fill (cm : CoeffMatrixOps CM FM Raw) (b : PolynomialBasis CM Ev)
    (matrix : FM) : PolynomialBasis CM Ev :=
  let c := cm.fill b.coeffMatrix_ matrix
  { b with coeffMatrix_ := c, size_ := cm.size c }

/-- `fill( matrix, size )` with `int size`: the assertion `size<=coeffMatrix_.size()` compares
after converting `size` to `unsigned int`, and `size_` receives the converted value. -/
def PolynomialBasisWithMatrix.fillSize (cm : CoeffMatrixOps CM FM Raw)
    (b : PolynomialBasis CM Ev) (matrix : FM) (size : Int) : Option (PolynomialBasis CM Ev) :=
  let c := cm.fill b.coeffMatrix_ matrix
  if toUnsigned size ≤ cm.size c then
    some { b with coeffMatrix_ := c, size_ := toUnsigned size }
  else none

end Basis

/-! ## The dense coefficient matrix and the monomial evaluator of the specification -/

/-- Modelled from the spec: `Tensor<F,dim,deriv>::size` of the missing `tensor.hh`, the number
of independent mixed partial derivatives of order `k` in `dim` variables,
`C(dim + k - 1, k)`. -/
def tensorSize (dim k : Nat) : Nat := Nat.choose (dim + k - 1) k

/-- Modelled from the spec: the position at which the derivatives of order `k` start in the
vector of all derivatives of orders `0, 1, ..., deriv` of one monomial. -/
def tensorOffset (dim k : Nat) : Nat := ((List.range k).map (tensorSize dim)).sum

/-- Modelled from the spec: the part of order exactly `k` of the derivative vector of one
monomial (missing `coeffmatrix.hh`, `mult<deriv>`: "values/derivatives of a single specified
order only"). -/
def orderSlice (dim k : Nat) (v : List ℚ) : List ℚ :=
  (v.drop (tensorOffset dim k)).take (tensorSize dim k)

/-- Modelled from the spec: one output entry of the transform
`finiteElementValue = C · monomialValue` of the missing `coeffmatrix.hh`: component `k` of the
entry is the sum over the monomials `j` of `row[j] * raw[j][k]`. -/
def denseEntry (n : Nat) (row : List ℚ) (raw : List (List ℚ)) : Entry :=
  (List.range n).map fun k => ((row.zip raw).map fun p => p.1 * p.2.getD k 0).sum

/-- Modelled from the spec: `mult` of the missing `coeffmatrix.hh` for a dense matrix with
scalar coefficients: output entry `i` is row `i` of `C` applied to the raw buffer. The rows
computed are those for which the buffer has an entry; entries for which the matrix has no
row are left as they are. -/
def denseMult : List (List ℚ) → List (List ℚ) → Buffer → Buffer
  | row :: c, raw, e :: y => denseEntry e.length row raw :: denseMult c raw y
  | _, _, y => y

/-- Modelled from the spec: the coefficient matrix of the missing `coeffmatrix.hh`, stored
densely: `fill` takes over the dense matrix, `size()` is its number of rows, `mult` is the
matrix-vector product and `mult<deriv>` the same product on the derivatives of order `deriv`
only. -/
def denseCoeffMatrix (dim : Nat) : CoeffMatrixOps (List (List ℚ)) (List (List ℚ)) (List (List ℚ)) where
  blockSize := 1
  empty := []
  size c := c.length
  fill _ matrix := matrix
  mult c raw y := denseMult c raw y
  multSingle deriv c raw y := denseMult c (raw.map (orderSlice dim deriv)) y

/-- Modelled from the spec: the exponent tuples of total degree `k` in `dim` variables of the
missing `monomialbasis.hh`, in the order of the spec's example (`x` before `y`). -/
def multiIndices : Nat → Nat → List (List Nat)
  | 0, 0 => [[]]
  | 0, _ + 1 => []
  | d + 1, k => (List.range (k + 1)).reverse.flatMap fun a => (multiIndices d (k - a)).map (a :: ·)

/-- Modelled from the spec: the monomials of total degree at most `order`, by increasing
total degree. -/
def monomials (dim order : Nat) : List (List Nat) :=
  (List.range (order + 1)).flatMap (multiIndices dim)

/-- Modelled from the spec: the partial derivative `β` of the monomial `x^α` at `x`, a
monomial scaled by falling factorials. -/
def monomialDerivative (x : List ℚ) (α β : List Nat) : ℚ :=
  ((x.zip (α.zip β)).map fun p => (Nat.descFactorial p.2.1 p.2.2 : ℚ) * p.1 ^ (p.2.1 - p.2.2)).prod

/-- The monomial basis of an order (its dimension is part of its type in the source). -/
structure MonomialBasis where
  order : Nat
  deriving DecidableEq, Repr

/-- Modelled from the spec: the evaluator of the missing `basisevaluator.hh` wrapped around the
monomial basis of the missing `monomialbasis.hh`: `evaluate<deriv>( x )` gives, for every
monomial, its derivatives of orders `0, ..., deriv` at `x`; `integrate()` gives the integral
of every monomial over the unit cube. -/
def monomialEvaluator (dim : Nat) :
    EvaluatorOps MonomialBasis MonomialBasis (List ℚ) (List (List ℚ)) where
  dimension := dim
  dimRange := 1
  create basis := basis
  order basis := basis.order
  evaluate deriv e x :=
    (monomials dim e.order).map fun α =>
      (monomials dim deriv).map fun β => monomialDerivative x α β
  integrate e :=
    (monomials dim e.order).map fun α => [(α.map fun a => (1 : ℚ) / (a + 1)).prod]


/-! ## The overloads of `PolynomialBasis` that reinterpret the output buffer -/

/-- The view of a flat `FieldVector< F, rows*cols >` as `rows` rows of `cols` scalars each,
the rows stored one after the other (`FieldMatrix< F, rows, cols >`, or a `FieldVector` of
`rows` tensors of `cols` scalars). -/
def reshape : Nat → Nat → List ℚ → List (List ℚ)
  | 0, _, _ => []
  | r + 1, c, l => l.take c :: reshape r c (l.drop c)

/-- A buffer of structured entries, `std::vector< FieldMatrix<...> >` or
`std::vector< FieldVector< FieldVector<...>, dimRange > >`. -/
abbrev StructuredBuffer := List (List (List ℚ))

section Overloads

variable {CM FM Raw Basis Ev Dom : Type}

/-- `static const int dimRange = Evaluator::dimRange*CoefficientMatrix::blockSize` -/
def PolynomialBasis.dimRange (cm : CoeffMatrixOps CM FM Raw) (ev : EvaluatorOps Basis Ev Dom Raw) :
    Nat :=
  ev.dimRange * cm.blockSize

/-- The overload of `evaluateSingle<deriv>` for
`std::vector< FieldVector< FieldVector< Fy, Tensor::size >, dimRange > >`: the buffer is
handed on as a vector of flat `FieldVector< Fy, Tensor::size*dimRange >`. -/
def PolynomialBasis.evaluateSingleNested (cm : CoeffMatrixOps CM FM Raw)
    (ev : EvaluatorOps Basis Ev Dom Raw) (deriv : Nat) (b : PolynomialBasis CM Ev) (x : Dom)
    (values : StructuredBuffer) : Option StructuredBuffer :=
  (PolynomialBasis.evaluateSingle cm ev deriv b x (values.map List.flatten)).map fun flat =>
    flat.map (reshape (PolynomialBasis.dimRange cm ev) (tensorSize ev.dimension deriv))

/-- The overload of `evaluateSingle<deriv>` for
`std::vector< FieldVector< Tensor< Fy, dimension, deriv >, dimRange > >`, handed on in the
same way. -/
def PolynomialBasis.evaluateSingleTensor (cm : CoeffMatrixOps CM FM Raw)
    (ev : EvaluatorOps Basis Ev Dom Raw) (deriv : Nat) (b : PolynomialBasis CM Ev) (x : Dom)
    (values : StructuredBuffer) : Option StructuredBuffer :=
  (PolynomialBasis.evaluateSingle cm ev deriv b x (values.map List.flatten)).map fun flat =>
    flat.map (reshape (PolynomialBasis.dimRange cm ev) (tensorSize ev.dimension deriv))

/-- `jacobian( x, values )` for `std::vector< FieldMatrix< Fy, dimRange, dimension > >`: its
own assertion, then `evaluateSingle<1>` on the buffer seen as a vector of flat
`FieldVector< Fy, dimRange*dimension >`. -/
def PolynomialBasis.jacobian (cm : CoeffMatrixOps CM FM Raw)
    (ev : EvaluatorOps Basis Ev Dom Raw) (b : PolynomialBasis CM Ev) (x : Dom)
    (values : StructuredBuffer) : Option StructuredBuffer :=
  if b.size ≤ values.length then
    (PolynomialBasis.evaluateSingle cm ev 1 b x (values.map List.flatten)).map fun flat =>
      flat.map (reshape (PolynomialBasis.dimRange cm ev) ev.dimension)
  else none

end Overloads

/-! ## The generic-coordinate overloads -/

section Generic

variable {CM FM Raw Basis Ev A S : Type}

/-- The loop `for( int d = 0; d < dimension; ++d ) field_cast( x[ d ], bx[ d ] )` on a point
with `dimension` coordinates. -/
def castPoint (dimension : Nat) (field_cast : A → S) (x : List A) (h : x.length = dimension) :
    List S :=
  List.ofFn fun d : Fin dimension => field_cast (x.get (d.cast h.symm))

/-- The overload `evaluate( x, values )` for any point type `DVector`: the assertion
`DVector::size == dimension`, the cast of the coordinates and `evaluate<0>( bx, values )`. -/
def PolynomialBasis.evaluateGeneric0 (cm : CoeffMatrixOps CM FM Raw)
    (ev : EvaluatorOps Basis Ev (List S) Raw) (field_cast : A → S) (b : PolynomialBasis CM Ev)
    (x : List A) (values : Buffer) : Option Buffer :=
  if h : x.length = ev.dimension then
    PolynomialBasis.evaluate cm ev 0 b (castPoint ev.dimension field_cast x h) values
  else none

/-- The overload `evaluate<deriv>( x, values )` for any point type `DVector`. -/
def PolynomialBasis.evaluateGeneric (cm : CoeffMatrixOps CM FM Raw)
    (ev : EvaluatorOps Basis Ev (List S) Raw) (deriv : Nat) (field_cast : A → S)
    (b : PolynomialBasis CM Ev) (x : List A) (values : Buffer) : Option Buffer :=
  if h : x.length = ev.dimension then
    PolynomialBasis.evaluate cm ev deriv b (castPoint ev.dimension field_cast x h) values
  else none

end Generic

/-! ## Sequences of `fill` calls -/

/-- A call of one of the two `fill` methods of `PolynomialBasisWithMatrix`. -/
inductive FillCall (FM : Type) where
  | fill (matrix : FM)
  | fillSize (matrix : FM) (size : Int)

section Calls

variable {CM FM Raw Ev : Type}

/-- One call; `none` when the assertion of `fill( matrix, size )` fails. -/
def PolynomialBasisWithMatrix.call (cm : CoeffMatrixOps CM FM Raw) (b : PolynomialBasis CM Ev) :
    FillCall FM → Option (PolynomialBasis CM Ev)
  | .fill matrix => some (PolynomialBasisWithMatrix.fill cm b matrix)
  | .fillSize matrix size => PolynomialBasisWithMatrix.fillSize cm b matrix size

/-- A sequence of calls, one after the other, stopping at the first failed assertion. -/
def PolynomialBasisWithMatrix.run (cm : CoeffMatrixOps CM FM Raw) (b : PolynomialBasis CM Ev) :
    List (FillCall FM) → Option (PolynomialBasis CM Ev)
  | [] => some b
  | c :: cs => (PolynomialBasisWithMatrix.call cm b c).bind fun b' =>
      PolynomialBasisWithMatrix.run cm b' cs

end Calls

/-! ## `MonomLocalInterpolation` and `LocalFEFunction` -/

/-- What `MonomLocalInterpolation` and `LocalFEFunction` use of a local basis with a scalar
range: `size()`, `order()` and `evaluateFunction( x, out )`, which returns the values of the
shape functions at `x`. -/
structure LocalBasis (D : Type) where
  size : Nat
  order : Nat
  evaluateFunction : D → List ℚ

/-- A point of a quadrature rule, with `position()` and `weight()`. -/
structure QuadraturePoint (D : Type) where
  position : D
  weight : ℚ

/-- The data members of `MonomLocalInterpolation< LB, size >`. -/
structure MonomLocalInterpolation (BT D : Type) (size : Nat) where
  bt : BT
  lb : LocalBasis D
  Minv : Matrix (Fin size) (Fin size) ℚ
  qr : List (QuadraturePoint D)

/-- What a run of the constructor of `MonomLocalInterpolation` does: the points at which it
has called `lb.evaluateFunction`, in the order of the calls, and either the exception thrown
or the object constructed. -/
structure Construction (BT D : Type) (size : Nat) where
  evaluated : List D
  result : Except String (MonomLocalInterpolation BT D size)

section Interpolation

variable {BT D : Type} {size : Nat}

/-- The loop of the constructor over the quadrature points: at every point the basis is
evaluated and `weight * base[i] * base[j]` is added to `Minv[i][j]` for all `i`, `j`. The
first component records the points at which the basis has been evaluated. -/
def MonomLocalInterpolation.assemble (size : Nat) (lb : LocalBasis D)
    (qr : List (QuadraturePoint D)) : List D × Matrix (Fin size) (Fin size) ℚ :=
  qr.foldl
    (fun st q =>
      let base := lb.evaluateFunction q.position
      (st.1 ++ [q.position],
        fun i j => st.2 i j + q.weight * base.getD i 0 * base.getD j 0))
    ([], 0)

/-- The constructor `MonomLocalInterpolation( bt, lb )`. The quadrature rule is looked up in
the member initializers (`rule`), the size is checked, the mass matrix is assembled and
inverted (`invert`). `rule` stands for `QuadratureRules<DF,dimD>::rule` and `invert` for
`FieldMatrix::invert`, both functions of other libraries. -/
def MonomLocalInterpolation.create (size : Nat) (rule : BT → Nat → List (QuadraturePoint D))
    (invert : Matrix (Fin size) (Fin size) ℚ → Matrix (Fin size) (Fin size) ℚ)
    (bt : BT) (lb : LocalBasis D) : Construction BT D size :=
  let qr := rule bt (2 * lb.order)
  if size ≠ lb.size then
    { evaluated := [],
      result := .error "size template parameter does not match size of local basis" }
  else
    let a := MonomLocalInterpolation.assemble size lb qr
    { evaluated := a.1, result := .ok { bt := bt, lb := lb, Minv := invert a.2, qr := qr } }

/-- `interpolate( f, out )`: `out` is cleared and resized to `size` zeros; at every quadrature
point `Minv[i][j] * weight * y * base[j]` is added to `out[i]` for all `i`, `j`. -/
def MonomLocalInterpolation.interpolate (I : MonomLocalInterpolation BT D size) (f : D → ℚ)
    (_out : List ℚ) : List ℚ :=
  I.qr.foldl
    (fun out q =>
      let y := f q.position
      let base := I.lb.evaluateFunction q.position
      List.ofFn fun i : Fin size =>
        (List.finRange size).foldl
          (fun acc j => acc + I.Minv i j * q.weight * y * base.getD j 0) (out.getD i 0))
    (List.replicate size 0)

/-- `LocalFEFunction::evaluate( x, y )` of the test: `y = 0` and then
`y.axpy( coeff_[i], yy[i] )` for every shape function value `yy[i]`. -/
def LocalFEFunction.evaluate (lb : LocalBasis D) (coeff_ : List ℚ) (x : D) : ℚ :=
  let yy := lb.evaluateFunction x
  (List.range yy.length).foldl (fun y i => y + coeff_.getD i 0 * yy.getD i 0) 0

end Interpolation

/-! ## `BDM1Cube2DLocalBasis` -/

/-- The data member `std::array<R,4> sign_` of `BDM1Cube2DLocalBasis< D, R >`. -/
structure BDM1Cube2DLocalBasis (R : Type) where
  sign_ : Fin 4 → R

section BDM

variable {R : Type}

/-- The standard constructor: `sign_[i] = 1.0` for `i < 4`. -/
def BDM1Cube2DLocalBasis.standard [One R] : BDM1Cube2DLocalBasis R :=
  { sign_ := fun _ => 1 }

/-- The constructor `BDM1Cube2DLocalBasis( std::bitset<4> s )`:
`sign_[i] = s[i] ? -1.0 : 1.0` for `i < 4`; the bit set is given by its number. -/
def BDM1Cube2DLocalBasis.ofBitset [Ring R] (s : Nat) : BDM1Cube2DLocalBasis R :=
  { sign_ := fun i => if s.testBit i then -1 else 1 }

/-- `size()` -/
def BDM1Cube2DLocalBasis.size (_b : BDM1Cube2DLocalBasis R) : Nat := 8

/-- `order()` -/
def BDM1Cube2DLocalBasis.order (_b : BDM1Cube2DLocalBasis R) : Nat := 2

/-- `evaluateFunction( in, out )`: `out` is resized to 8 and both components of every entry
are assigned; `x 0` and `x 1` are `in[0]` and `in[1]`. -/
def BDM1Cube2DLocalBasis.evaluateFunction [CommRing R] (b : BDM1Cube2DLocalBasis R)
    (x : Fin 2 → R) : List (List R) :=
  [[b.sign_ 0 * (x 0 - 1), 0],
   [6 * x 0 * x 1 - 3 * x 0 - 6 * x 1 + 3, -3 * x 1 * x 1 + 3 * x 1],
   [b.sign_ 1 * x 0, 0],
   [-6 * x 0 * x 1 + 3 * x 0, 3 * x 1 * x 1 - 3 * x 1],
   [0, b.sign_ 2 * (x 1 - 1)],
   [3 * x 0 * x 0 - 3 * x 0, -6 * x 0 * x 1 + 6 * x 0 + 3 * x 1 - 3],
   [0, b.sign_ 3 * x 1],
   [-3 * x 0 * x 0 + 3 * x 0, 6 * x 0 * x 1 - 3 * x 1]]

/-- `evaluateJacobian( in, out )`: `out` is resized to 8 and the four entries
`out[i][r][c]` of every matrix are assigned. -/
def BDM1Cube2DLocalBasis.evaluateJacobian [CommRing R] (b : BDM1Cube2DLocalBasis R)
    (x : Fin 2 → R) : List (List (List R)) :=
  [[[b.sign_ 0, 0], [0, 0]],
   [[6 * x 1 - 3, 6 * x 0 - 6], [0, -6 * x 1 + 3]],
   [[b.sign_ 1, 0], [0, 0]],
   [[-6 * x 1 + 3, -6 * x 0], [0, 6 * x 1 - 3]],
   [[0, 0], [0, b.sign_ 2]],
   [[6 * x 0 - 3, 0], [-6 * x 1 + 6, -6 * x 0 + 3]],
   [[0, 0], [0, b.sign_ 3]],
   [[-6 * x 0 + 3, 0], [6 * x 1, 6 * x 0 - 3]]]

/-- Component `r` of shape function `i` in the output of `evaluateFunction`: `out[i][r]`. -/
def shapeComponent [Zero R] (out : List (List R)) (i r : Nat) : R :=
  (out.getD i []).getD r 0

/-- Entry `out[i][r][c]` of the output of `evaluateJacobian`. -/
def jacobianEntry [Zero R] (out : List (List (List R))) (i r c : Nat) : R :=
  ((out.getD i []).getD r []).getD c 0

end BDM

/-! ## `P0LocalInterpolation` -/

/-- `std::vector::resize( n )`: the first `n` entries are kept and entries with the value
`value` (the value-initialised element) are appended up to the length `n`. -/
def vectorResize {α : Type} (n : Nat) (value : α) (v : List α) : List α :=
  v.take n ++ List.replicate (n - v.length) value

/-- `GeometryType`, as constructed by `GeometryType( basicType, dim )`. -/
structure GeometryType (BT : Type) where
  basicType : BT
  dim : Nat

/-- The data member of `P0LocalInterpolation< LB >`. -/
structure P0LocalInterpolation (BT : Type) where
  gt : GeometryType BT

section P0

variable {BT D : Type}

/-- The constructor `P0LocalInterpolation( basicType, d )`: `gt(basicType,d)`, the `int` `d`
converted to the `unsigned int` of `GeometryType`. -/
def P0LocalInterpolation.create (basicType : BT) (d : Int) : P0LocalInterpolation BT :=
  { gt := { basicType := basicType, dim := toUnsigned d } }

/-- `interpolate( f, out )`: `x` is `position(0,0)` of the reference element of `gt`
(`position` stands for `GenericReferenceElements<DF,dim>::general(gt).position`);
`out.resize(1)`, then `f.evaluate(x,y)` and `out[0] = y`. -/
def P0LocalInterpolation.interpolate (position : GeometryType BT → Nat → Nat → D)
    (I : P0LocalInterpolation BT) (f : D → ℚ) (out : List ℚ) : List ℚ :=
  let x := position I.gt 0 0
  let y := f x
  (vectorResize 1 0 out).set 0 y

end P0

/-! ## Concrete inputs -/

/-- The identity matrix with `n` rows as a dense coefficient matrix. -/
def identityMatrix (n : Nat) : List (List ℚ) :=
  (List.range n).map fun i => (List.range n).map fun j => if i = j then 1 else 0

/-- A freshly constructed `PolynomialBasisWithMatrix` on the monomials of order 1 in two
variables (`1`, `x`, `y`). -/
def linearBasis2d : PolynomialBasis (List (List ℚ)) MonomialBasis :=
  PolynomialBasisWithMatrix.create (denseCoeffMatrix 2) (monomialEvaluator 2) ⟨1⟩

/-- A freshly constructed `PolynomialBasisWithMatrix` on the monomial of order 0 in one
variable (`1`). -/
def constantBasis1d : PolynomialBasis (List (List ℚ)) MonomialBasis :=
  PolynomialBasisWithMatrix.create (denseCoeffMatrix 1) (monomialEvaluator 1) ⟨0⟩

/-- `GeometryType::BasicType` -/
inductive BasicType where
  | simplex
  | cube
  | pyramid
  | prism
  deriving DecidableEq, Repr

/-- The local basis `1`, `x` on the unit interval. -/
def linearBasis1d : LocalBasis ℚ where
  size := 2
  order := 1
  evaluateFunction x := [1, x]

/-- Simpson's rule on the unit interval, whatever the order asked for. -/
def simpsonRule (_bt : BasicType) (_order : Nat) : List (QuadraturePoint ℚ) :=
  [⟨0, 1 / 6⟩, ⟨1 / 2, 2 / 3⟩, ⟨1, 1 / 6⟩]

/-- The inverse of a matrix by Cramer's rule. -/
def cramerInverse {n : Nat} (M : Matrix (Fin n) (Fin n) ℚ) : Matrix (Fin n) (Fin n) ℚ :=
  (M.det)⁻¹ • M.adjugate

/-- The basis `linearBasis2d` after `fill` with the identity of three rows. -/
def identityBasis2d : PolynomialBasis (List (List ℚ)) MonomialBasis :=
  PolynomialBasisWithMatrix.fill (denseCoeffMatrix 2) linearBasis2d (identityMatrix 3)


/-! ## Auxiliary facts -/

theorem toUnsigned_of_nonneg (s : Int) (h0 : 0 ≤ s) (hint : s < 2 ^ 31) :
    ((toUnsigned s : Nat) : Int) = s := by
  unfold toUnsigned
  rw [Int.emod_eq_of_lt h0 (by omega)]
  exact Int.toNat_of_nonneg h0

theorem toUnsigned_of_neg (s : Int) (hneg : s < 0) (hint : -2 ^ 31 ≤ s) :
    2 ^ 31 ≤ toUnsigned s := by
  unfold toUnsigned
  omega

theorem length_denseMult (c raw : List (List ℚ)) (y : Buffer) :
    (denseMult c raw y).length = y.length := by
  induction c generalizing y with
  | nil => simp [denseMult]
  | cons row c ih =>
    cases y with
    | nil => simp [denseMult]
    | cons e y => simp [denseMult, ih]

theorem denseMult_take (c raw : List (List ℚ)) (y : Buffer) :
    denseMult (c.take y.length) raw y = denseMult c raw y := by
  induction c generalizing y with
  | nil => simp
  | cons row c ih =>
    cases y with
    | nil => simp [denseMult]
    | cons e y => simp [denseMult, ih]

theorem sum_zipWith_delta (g : List ℚ) (i s : Nat) :
    (List.zipWith (· * ·) ((List.range' s g.length).map fun j => if i = j then (1 : ℚ) else 0)
      g).sum = if s ≤ i then g.getD (i - s) 0 else 0 := by
  induction g generalizing s with
  | nil => simp
  | cons v t ih =>
    simp only [List.length_cons, List.range'_succ, List.map_cons, List.zipWith_cons_cons,
      List.sum_cons, ih]
    by_cases h : i = s
    · subst h
      simp
    · by_cases h2 : s ≤ i
      · have h3 : s + 1 ≤ i := by omega
        have h4 : i - s = (i - (s + 1)) + 1 := by omega
        rw [if_neg h, if_pos h3, if_pos h2, h4]
        simp
      · have h3 : ¬ s + 1 ≤ i := by omega
        rw [if_neg h, if_neg h3, if_neg h2]
        simp

theorem denseEntry_identity (n N i : Nat) (raw : List (List ℚ)) (hN : raw.length = N) :
    denseEntry n ((List.range N).map fun j => if i = j then (1 : ℚ) else 0) raw
      = (List.range n).map fun k => (raw.getD i []).getD k 0 := by
  unfold denseEntry
  apply List.map_congr_left
  intro k _
  have h := sum_zipWith_delta (raw.map fun v => v.getD k 0) i 0
  simp only [List.length_map, hN, Nat.zero_le, if_true, Nat.sub_zero] at h
  rw [List.range_eq_range']
  have h2 : (List.map (fun p : ℚ × List ℚ => p.1 * p.2.getD k 0)
      ((List.map (fun j => if i = j then (1 : ℚ) else 0) (List.range' 0 N)).zip raw))
      = List.zipWith (· * ·) ((List.range' 0 N).map fun j => if i = j then (1 : ℚ) else 0)
          (raw.map fun v => v.getD k 0) := by
    simp [List.zip, List.map_zipWith, List.zipWith_map_right]
  rw [h2, h]
  simp [List.getD_eq_getElem?_getD, List.getElem?_map]
  cases raw[i]? <;> simp

theorem map_range_getD (v : List ℚ) : ((List.range v.length).map fun k => v.getD k 0) = v := by
  apply List.ext_getElem
  · simp
  · intro k h1 h2
    simp [List.getD_eq_getElem?_getD, List.getElem?_eq_getElem h2]

theorem denseMult_getElem_opt (mat raw : List (List ℚ)) (y : Buffer) (i : Nat) (row : List ℚ)
    (e : Entry) (hc : mat[i]? = some row) (hy : y[i]? = some e) :
    (denseMult mat raw y)[i]? = some (denseEntry e.length row raw) := by
  induction mat generalizing y i with
  | nil => simp at hc
  | cons row' mat ih =>
    cases y with
    | nil => simp at hy
    | cons e' y =>
      cases i with
      | zero =>
        simp only [List.getElem?_cons_zero, Option.some.injEq] at hc hy
        subst hc hy
        simp [denseMult]
      | succ i =>
        simp only [List.getElem?_cons_succ] at hc hy
        simp only [denseMult, List.getElem?_cons_succ]
        exact ih y i hc hy

theorem denseMult_identity (raw : List (List ℚ)) (y : Buffer)
    (hy : List.Forall₂ (fun e v => e.length = v.length) y raw) :
    denseMult (identityMatrix raw.length) raw y = raw := by
  have hlen := hy.length_eq
  apply List.ext_getElem?
  intro i
  by_cases h2 : i < raw.length
  · have h1 : i < y.length := by omega
    have hrow : (identityMatrix raw.length)[i]?
        = some ((List.range raw.length).map fun j => if i = j then (1 : ℚ) else 0) := by
      simp [identityMatrix, List.getElem?_map, List.getElem?_range h2]
    rw [denseMult_getElem_opt _ _ _ _ _ _ hrow (List.getElem?_eq_getElem h1)]
    have he : (y.get ⟨i, h1⟩).length = (raw.get ⟨i, h2⟩).length :=
      (List.forall₂_iff_get.1 hy).2 i h1 h2
    simp only [List.get_eq_getElem] at he
    rw [denseEntry_identity _ _ _ _ rfl, he, List.getElem?_eq_getElem h2]
    simp only [List.getD_eq_getElem?_getD, List.getElem?_eq_getElem h2, Option.getD_some]
    have := map_range_getD (raw.get ⟨i, h2⟩)
    simp only [List.get_eq_getElem, List.getD_eq_getElem?_getD] at this
    rw [this]
  · have h3 : raw.length ≤ i := by omega
    rw [List.getElem?_eq_none h3, List.getElem?_eq_none]
    rw [length_denseMult]
    omega

section InterpolationFacts

variable {BT D : Type}

theorem foldl_add_eq_sum {ι : Type} (g : ι → ℚ) (l : List ι) (a : ℚ) :
    l.foldl (fun acc j => acc + g j) a = a + (l.map g).sum := by
  induction l generalizing a with
  | nil => simp
  | cons j l ih => simp [ih, add_assoc]

theorem foldl_finRange_eq_sum (n : Nat) (g : Fin n → ℚ) (a : ℚ) :
    (List.finRange n).foldl (fun acc j => acc + g j) a = a + ∑ j, g j := by
  rw [foldl_add_eq_sum, ← List.ofFn_eq_map, List.sum_ofFn]

theorem assemble_fold_apply (size : Nat) (lb : LocalBasis D) (qr : List (QuadraturePoint D))
    (st : List D × Matrix (Fin size) (Fin size) ℚ) (i j : Fin size) :
    (qr.foldl
      (fun st q =>
        let base := lb.evaluateFunction q.position
        ((st.1 ++ [q.position],
          fun i j => st.2 i j + q.weight * base.getD i 0 * base.getD j 0) :
          List D × Matrix (Fin size) (Fin size) ℚ))
      st).2 i j
      = st.2 i j + (qr.map fun q => q.weight * (lb.evaluateFunction q.position).getD i 0
          * (lb.evaluateFunction q.position).getD j 0).sum := by
  induction qr generalizing st with
  | nil => simp
  | cons q qr ih =>
    simp only [List.foldl_cons, List.map_cons, List.sum_cons]
    rw [ih]
    ring

theorem assemble_apply (size : Nat) (lb : LocalBasis D) (qr : List (QuadraturePoint D))
    (i j : Fin size) :
    (MonomLocalInterpolation.assemble size lb qr).2 i j
      = (qr.map fun q => q.weight * (lb.evaluateFunction q.position).getD i 0
          * (lb.evaluateFunction q.position).getD j 0).sum := by
  unfold MonomLocalInterpolation.assemble
  rw [assemble_fold_apply]
  simp

theorem assemble_fold_evaluated (size : Nat) (lb : LocalBasis D) (qr : List (QuadraturePoint D))
    (st : List D × Matrix (Fin size) (Fin size) ℚ) :
    (qr.foldl
      (fun st q =>
        let base := lb.evaluateFunction q.position
        ((st.1 ++ [q.position],
          fun i j => st.2 i j + q.weight * base.getD i 0 * base.getD j 0) :
          List D × Matrix (Fin size) (Fin size) ℚ))
      st).1 = st.1 ++ qr.map (·.position) := by
  induction qr generalizing st with
  | nil => simp
  | cons q qr ih =>
    simp only [List.foldl_cons, List.map_cons]
    rw [ih]
    simp

theorem assemble_evaluated (size : Nat) (lb : LocalBasis D) (qr : List (QuadraturePoint D)) :
    (MonomLocalInterpolation.assemble size lb qr).1 = qr.map (·.position) := by
  unfold MonomLocalInterpolation.assemble
  rw [assemble_fold_evaluated]
  simp

theorem assemble_symm (size : Nat) (lb : LocalBasis D) (qr : List (QuadraturePoint D))
    (i j : Fin size) :
    (MonomLocalInterpolation.assemble size lb qr).2 i j
      = (MonomLocalInterpolation.assemble size lb qr).2 j i := by
  rw [assemble_apply, assemble_apply]
  congr 1
  apply List.map_congr_left
  intro q _
  ring

theorem interpolate_fold {size : Nat} (Minv : Matrix (Fin size) (Fin size) ℚ)
    (lb : LocalBasis D) (f : D → ℚ) (qr : List (QuadraturePoint D)) (out : List ℚ)
    (hout : out.length = size) :
    qr.foldl
      (fun out q =>
        let y := f q.position
        let base := lb.evaluateFunction q.position
        List.ofFn fun i : Fin size =>
          (List.finRange size).foldl
            (fun acc j => acc + Minv i j * q.weight * y * base.getD j 0) (out.getD i 0))
      out
      = List.ofFn fun i : Fin size => out.getD i 0 + (qr.map fun q =>
          ∑ j : Fin size, Minv i j * q.weight * f q.position
            * (lb.evaluateFunction q.position).getD j 0).sum := by
  induction qr generalizing out with
  | nil =>
    simp only [List.foldl_nil, List.map_nil, List.sum_nil, add_zero]
    apply List.ext_getElem
    · simp [hout]
    · intro k h1 h2
      simp [List.getD_eq_getElem?_getD, List.getElem?_eq_getElem h1]
  | cons q qr ih =>
    simp only [List.foldl_cons, List.map_cons, List.sum_cons]
    rw [ih _ (by simp)]
    congr 1
    funext i
    simp only [foldl_finRange_eq_sum]
    simp [List.getD_eq_getElem?_getD, add_assoc]

theorem sum_map_range (g : ℕ → ℚ) (n : Nat) :
    ((List.range n).map g).sum = ∑ k : Fin n, g k := by
  induction n with
  | zero => simp
  | succ n ih =>
    rw [List.range_succ, List.map_append, List.sum_append, ih, Fin.sum_univ_castSucc]
    simp

theorem localFEFunction_evaluate_eq (lb : LocalBasis D) (coeff : List ℚ) (x : D) (n : Nat)
    (h : (lb.evaluateFunction x).length = n) :
    LocalFEFunction.evaluate lb coeff x
      = ∑ k : Fin n, coeff.getD k 0 * (lb.evaluateFunction x).getD k 0 := by
  unfold LocalFEFunction.evaluate
  simp only
  rw [foldl_add_eq_sum, h, zero_add, sum_map_range]

theorem interpolation_sum_swap {size : Nat} (Minv : Matrix (Fin size) (Fin size) ℚ)
    (lb : LocalBasis D) (coeff : List ℚ) (qr : List (QuadraturePoint D)) (i : Fin size) :
    (qr.map fun q =>
        ∑ j : Fin size, Minv i j * q.weight
          * (∑ k : Fin size, coeff.getD k 0 * (lb.evaluateFunction q.position).getD k 0)
          * (lb.evaluateFunction q.position).getD j 0).sum
      = ∑ j : Fin size, ∑ k : Fin size, Minv i j * coeff.getD k 0
          * (qr.map fun q => q.weight * (lb.evaluateFunction q.position).getD k 0
              * (lb.evaluateFunction q.position).getD j 0).sum := by
  induction qr with
  | nil => simp
  | cons q qr ih =>
    simp only [List.map_cons, List.sum_cons, ih, mul_add, Finset.sum_add_distrib]
    congr 1
    apply Finset.sum_congr rfl
    intro j _
    rw [Finset.mul_sum, Finset.sum_mul]
    apply Finset.sum_congr rfl
    intro k _
    ring

/-- Over an exact field, and with `Minv` an exact inverse of the assembled mass matrix, the
sums of `interpolate` applied to `sum_i c_i phi_i` collapse to `c`. This is a fact of the
exact arithmetic of this embedding; it says nothing about the rounding of a computation in
`double`. -/
theorem interpolate_linear_combination {size : Nat} (lb : LocalBasis D)
    (qr : List (QuadraturePoint D)) (Minv : Matrix (Fin size) (Fin size) ℚ) (bt : BT)
    (coeff out : List ℚ)
    (hbase : ∀ q ∈ qr, (lb.evaluateFunction q.position).length = size)
    (hinv : Minv * (MonomLocalInterpolation.assemble size lb qr).2 = 1)
    (hc : coeff.length = size) :
    MonomLocalInterpolation.interpolate
        ({ bt := bt, lb := lb, Minv := Minv, qr := qr } : MonomLocalInterpolation BT D size)
        (LocalFEFunction.evaluate lb coeff) out = coeff := by
  unfold MonomLocalInterpolation.interpolate
  simp only
  rw [interpolate_fold Minv lb _ qr _ (by simp)]
  have hmap : (fun i : Fin size => (List.replicate size (0 : ℚ)).getD i 0 + (qr.map fun q =>
          ∑ j : Fin size, Minv i j * q.weight * LocalFEFunction.evaluate lb coeff q.position
            * (lb.evaluateFunction q.position).getD j 0).sum)
      = fun i : Fin size => coeff.getD i 0 := by
    funext i
    have h0 : (List.replicate size (0 : ℚ)).getD i 0 = 0 := by
      simp [List.getD_eq_getElem?_getD, List.getElem?_replicate]
    rw [h0, zero_add]
    have hq : (qr.map fun q =>
          ∑ j : Fin size, Minv i j * q.weight * LocalFEFunction.evaluate lb coeff q.position
            * (lb.evaluateFunction q.position).getD j 0)
        = qr.map fun q =>
          ∑ j : Fin size, Minv i j * q.weight
            * (∑ k : Fin size, coeff.getD k 0 * (lb.evaluateFunction q.position).getD k 0)
            * (lb.evaluateFunction q.position).getD j 0 := by
      apply List.map_congr_left
      intro q hq
      rw [localFEFunction_evaluate_eq lb coeff q.position size (hbase q hq)]
    rw [hq, interpolation_sum_swap]
    simp only [← assemble_apply]
    rw [Finset.sum_comm]
    have hk : ∀ k : Fin size,
        (∑ j : Fin size, Minv i j * coeff.getD k 0
            * (MonomLocalInterpolation.assemble size lb qr).2 k j)
          = coeff.getD k 0 * (if i = k then 1 else 0) := by
      intro k
      have h1 : (Minv * (MonomLocalInterpolation.assemble size lb qr).2) i k
          = (1 : Matrix (Fin size) (Fin size) ℚ) i k := by rw [hinv]
      rw [Matrix.mul_apply, Matrix.one_apply] at h1
      rw [← h1, Finset.mul_sum]
      apply Finset.sum_congr rfl
      intro j _
      rw [assemble_symm size lb qr k j]
      ring
    simp only [hk]
    simp
  rw [hmap]
  apply List.ext_getElem
  · simp [hc]
  · intro k h1 h2
    simp [List.getD_eq_getElem?_getD, List.getElem?_eq_getElem h2]

end InterpolationFacts

section BasisFacts

variable {CM FM Raw Basis Ev Dom A S : Type}

theorem assert_some_iff {α : Type} (p : Prop) [Decidable p] (v : α) :
    ((if p then some v else none) = none ↔ ¬ p)
      ∧ ((if p then some v else none) = some v ↔ p) := by
  by_cases h : p <;> simp [h]

theorem assert_map_some_iff {α β : Type} (p : Prop) [Decidable p] (v : α) (g : α → β) :
    (((if p then some v else none).map g) = none ↔ ¬ p)
      ∧ (((if p then some v else none).map g) = some (g v) ↔ p) := by
  by_cases h : p <;> simp [h]

theorem jacobian_eq_map (cm : CoeffMatrixOps CM FM Raw) (ev : EvaluatorOps Basis Ev Dom Raw)
    (b : PolynomialBasis CM Ev) (x : Dom) (values : StructuredBuffer) :
    PolynomialBasis.jacobian cm ev b x values
      = (PolynomialBasis.evaluateSingle cm ev 1 b x (values.map List.flatten)).map fun flat =>
          flat.map (reshape (PolynomialBasis.dimRange cm ev) ev.dimension) := by
  unfold PolynomialBasis.jacobian PolynomialBasis.evaluateSingle
  by_cases h : b.size ≤ values.length <;> simp [h]

theorem call_size_le (cm : CoeffMatrixOps CM FM Raw) (b b' : PolynomialBasis CM Ev)
    (call : FillCall FM) (h : PolynomialBasisWithMatrix.call cm b call = some b') :
    b'.size ≤ cm.size b'.coeffMatrix_ := by
  cases call with
  | fill matrix =>
    simp only [PolynomialBasisWithMatrix.call, Option.some.injEq] at h
    subst h
    exact Nat.le_refl _
  | fillSize matrix size =>
    simp only [PolynomialBasisWithMatrix.call, PolynomialBasisWithMatrix.fillSize] at h
    split at h
    · rename_i hle
      simp only [Option.some.injEq] at h
      subst h
      exact hle
    · cases h

theorem run_size_le (cm : CoeffMatrixOps CM FM Raw) (calls : List (FillCall FM))
    (b b' : PolynomialBasis CM Ev) (hb : b.size ≤ cm.size b.coeffMatrix_)
    (h : PolynomialBasisWithMatrix.run cm b calls = some b') :
    b'.size ≤ cm.size b'.coeffMatrix_ := by
  induction calls generalizing b with
  | nil =>
    simp only [PolynomialBasisWithMatrix.run, Option.some.injEq] at h
    subst h
    exact hb
  | cons call calls ih =>
    simp only [PolynomialBasisWithMatrix.run] at h
    cases hc : PolynomialBasisWithMatrix.call cm b call with
    | none => rw [hc] at h; cases h
    | some b1 =>
      rw [hc] at h
      exact ih b1 (call_size_le cm b b1 call hc) h

theorem length_reshape (R C : Nat) (e : List ℚ) : (reshape R C e).length = R := by
  induction R generalizing e with
  | zero => simp [reshape]
  | succ R ih => simp [reshape, ih]

theorem reshape_getElem_opt (R C : Nat) (e : List ℚ) (r : Nat) (hr : r < R) :
    (reshape R C e)[r]? = some ((e.drop (r * C)).take C) := by
  induction R generalizing e r with
  | zero => omega
  | succ R ih =>
    cases r with
    | zero => simp [reshape]
    | succ r =>
      simp only [reshape, List.getElem?_cons_succ]
      rw [ih (e.drop C) r (by omega), List.drop_drop, Nat.succ_mul, Nat.add_comm C (r * C)]

theorem flatten_reshape (R C : Nat) (e : List ℚ) : (reshape R C e).flatten = e.take (R * C) := by
  induction R generalizing e with
  | zero => simp [reshape]
  | succ R ih =>
    simp only [reshape, List.flatten_cons, ih]
    rw [Nat.succ_mul, Nat.add_comm (R * C) C, List.take_add]

theorem reshape_entry (R C : Nat) (e : List ℚ) (r d : Nat) (hr : r < R) (hd : d < C) :
    ((reshape R C e)[r]?.bind fun row => row[d]?) = e[r * C + d]? := by
  rw [reshape_getElem_opt R C e r hr]
  simp only [Option.some_bind]
  rw [List.getElem?_take_of_lt hd, List.getElem?_drop]

theorem tensorSize_one (dim : Nat) : tensorSize dim 1 = dim := by
  simp [tensorSize]

theorem castPoint_eq_map (dimension : Nat) (field_cast : A → S) (x : List A)
    (h : x.length = dimension) : castPoint dimension field_cast x h = x.map field_cast := by
  subst h
  unfold castPoint
  apply List.ext_getElem
  · simp
  · intro i h1 h2
    simp

theorem evaluateGeneric_eq_evaluate (cm : CoeffMatrixOps CM FM Raw)
    (ev : EvaluatorOps Basis Ev (List S) Raw) (deriv : Nat) (field_cast : A → S)
    (b : PolynomialBasis CM Ev) (x : List A) (values : Buffer) (hx : x.length = ev.dimension) :
    PolynomialBasis.evaluateGeneric cm ev deriv field_cast b x values
      = PolynomialBasis.evaluate cm ev deriv b (x.map field_cast) values := by
  unfold PolynomialBasis.evaluateGeneric
  rw [dif_pos hx, castPoint_eq_map]

theorem evaluateGeneric0_eq_evaluate (cm : CoeffMatrixOps CM FM Raw)
    (ev : EvaluatorOps Basis Ev (List S) Raw) (field_cast : A → S)
    (b : PolynomialBasis CM Ev) (x : List A) (values : Buffer) (hx : x.length = ev.dimension) :
    PolynomialBasis.evaluateGeneric0 cm ev field_cast b x values
      = PolynomialBasis.evaluate cm ev 0 b (x.map field_cast) values := by
  unfold PolynomialBasis.evaluateGeneric0
  rw [dif_pos hx, castPoint_eq_map]

theorem orderSlice_zero (dim : Nat) (v : List ℚ) (hv : v.length = tensorSize dim 0) :
    orderSlice dim 0 v = v := by
  have h1 : tensorSize dim 0 = 1 := by simp [tensorSize]
  unfold orderSlice tensorOffset
  rw [h1] at hv ⊢
  simp only [List.range_zero, List.map_nil, List.sum_nil, List.drop_zero]
  exact List.take_of_length_le (by omega)

theorem denseCoeffMatrix_multSingle_zero (dim : Nat) (mat raw : List (List ℚ)) (y : Buffer)
    (hraw : ∀ v ∈ raw, v.length = tensorSize dim 0) :
    (denseCoeffMatrix dim).multSingle 0 mat raw y = (denseCoeffMatrix dim).mult mat raw y := by
  have h : raw.map (orderSlice dim 0) = raw := by
    conv_rhs => rw [← List.map_id raw]
    apply List.map_congr_left
    intro v hv
    exact orderSlice_zero dim v (hraw v hv)
  simp only [denseCoeffMatrix]
  rw [h]

end BasisFacts

section BDMFacts

open MvPolynomial

theorem pderiv_three (c : Fin 2) : pderiv c (3 : MvPolynomial (Fin 2) ℚ) = 0 := by
  have h := Derivation.map_natCast (pderiv c : Derivation ℚ (MvPolynomial (Fin 2) ℚ) _) 3
  simpa using h

theorem pderiv_six (c : Fin 2) : pderiv c (6 : MvPolynomial (Fin 2) ℚ) = 0 := by
  have h := Derivation.map_natCast (pderiv c : Derivation ℚ (MvPolynomial (Fin 2) ℚ) _) 6
  simpa using h

theorem pderiv_sign (s : Nat) (e : Fin 4) (c : Fin 2) :
    pderiv c ((BDM1Cube2DLocalBasis.ofBitset s :
      BDM1Cube2DLocalBasis (MvPolynomial (Fin 2) ℚ)).sign_ e) = 0 := by
  unfold BDM1Cube2DLocalBasis.ofBitset
  simp only
  split <;> simp

theorem jacobian_eq_pderiv (b : BDM1Cube2DLocalBasis (MvPolynomial (Fin 2) ℚ))
    (hb : ∀ (e : Fin 4) (c : Fin 2), pderiv c (b.sign_ e) = 0) (i : Fin 8) (r c : Fin 2) :
    jacobianEntry (b.evaluateJacobian X) i r c
      = pderiv c (shapeComponent (b.evaluateFunction X) i r) := by
  fin_cases i <;> fin_cases r <;> fin_cases c <;>
    simp [jacobianEntry, shapeComponent, BDM1Cube2DLocalBasis.evaluateJacobian,
      BDM1Cube2DLocalBasis.evaluateFunction, pderiv_X, Derivation.leibniz, hb, pderiv_three,
      pderiv_six] <;> ring

theorem eval_sign (s : Nat) (e : Fin 4) (p : Fin 2 → ℚ) :
    eval p ((BDM1Cube2DLocalBasis.ofBitset s :
      BDM1Cube2DLocalBasis (MvPolynomial (Fin 2) ℚ)).sign_ e)
      = (BDM1Cube2DLocalBasis.ofBitset s : BDM1Cube2DLocalBasis ℚ).sign_ e := by
  unfold BDM1Cube2DLocalBasis.ofBitset
  simp only
  split <;> simp

theorem eval_shapeComponent (b : BDM1Cube2DLocalBasis (MvPolynomial (Fin 2) ℚ))
    (b' : BDM1Cube2DLocalBasis ℚ) (p : Fin 2 → ℚ)
    (hb : ∀ e : Fin 4, eval p (b.sign_ e) = b'.sign_ e) (i : Fin 8) (r : Fin 2) :
    eval p (shapeComponent (b.evaluateFunction X) i r)
      = shapeComponent (b'.evaluateFunction p) i r := by
  fin_cases i <;> fin_cases r <;>
    simp [shapeComponent, BDM1Cube2DLocalBasis.evaluateFunction, hb]

theorem eval_jacobianEntry (b : BDM1Cube2DLocalBasis (MvPolynomial (Fin 2) ℚ))
    (b' : BDM1Cube2DLocalBasis ℚ) (p : Fin 2 → ℚ)
    (hb : ∀ e : Fin 4, eval p (b.sign_ e) = b'.sign_ e) (i : Fin 8) (r c : Fin 2) :
    eval p (jacobianEntry (b.evaluateJacobian X) i r c)
      = jacobianEntry (b'.evaluateJacobian p) i r c := by
  fin_cases i <;> fin_cases r <;> fin_cases c <;>
    simp [jacobianEntry, BDM1Cube2DLocalBasis.evaluateJacobian, hb]

end BDMFacts

/-! ## Claim C1 -/

/-- C1: after `fill(matrix)` the value of `size()` is the number of rows of the filled
coefficient matrix. For an `int` `s` not larger than that number of rows, `fill(matrix, s)`
with a count `s` (`0 ≤ s`) passes its assertion and leaves `size() = s`; a negative `s`
fails the assertion, so that every `fill(matrix, s)` that returns leaves `size() = s`. -/
theorem C1_size_after_fill {CM FM Raw Ev : Type} (cm : CoeffMatrixOps CM FM Raw)
    (b : PolynomialBasis CM Ev) (matrix : FM) (s : Int)
    (hint : -2 ^ 31 ≤ s ∧ s < 2 ^ 31)
    (hs : s ≤ cm.size (cm.fill b.coeffMatrix_ matrix)) :
    (PolynomialBasisWithMatrix.fill cm b matrix).size
        = cm.size (PolynomialBasisWithMatrix.fill cm b matrix).coeffMatrix_
      ∧ (PolynomialBasisWithMatrix.fill cm b matrix).coeffMatrix_
        = cm.fill b.coeffMatrix_ matrix
      ∧ (0 ≤ s → ∃ b', PolynomialBasisWithMatrix.fillSize cm b matrix s = some b'
          ∧ (b'.size : Int) = s ∧ b'.coeffMatrix_ = cm.fill b.coeffMatrix_ matrix)
      ∧ (s < 0 → cm.size (cm.fill b.coeffMatrix_ matrix) < 2 ^ 31 →
          PolynomialBasisWithMatrix.fillSize cm b matrix s = none) := by
  refine ⟨rfl, rfl, ?_, ?_⟩
  · intro h0
    have hu := toUnsigned_of_nonneg s h0 hint.2
    have hle : toUnsigned s ≤ cm.size (cm.fill b.coeffMatrix_ matrix) := by omega
    refine ⟨_, by simp only [PolynomialBasisWithMatrix.fillSize]; rw [if_pos hle], ?_, rfl⟩
    simpa [PolynomialBasis.size] using hu
  · intro h hrows
    have := toUnsigned_of_neg s h hint.1
    simp only [PolynomialBasisWithMatrix.fillSize]
    rw [if_neg (by omega)]

/-- C1 at the identity with three rows and `s = 2`. -/
theorem C1_size_after_fill_witness :
    (PolynomialBasisWithMatrix.fill (denseCoeffMatrix 2) linearBasis2d (identityMatrix 3)).size = 3
      ∧ ∃ b', PolynomialBasisWithMatrix.fillSize (denseCoeffMatrix 2) linearBasis2d
            (identityMatrix 3) 2 = some b' ∧ (b'.size : Int) = 2 := by
  have h := C1_size_after_fill (denseCoeffMatrix 2) linearBasis2d (identityMatrix 3) 2
    (by decide) (by decide)
  obtain ⟨b', h1, h2, _⟩ := h.2.2.1 (by decide)
  exact ⟨h.1.trans (by decide), b', h1, h2⟩

/-! ## Claim C2 -/

/-- C2 as stated fails. The matrices `[[1], [1]]` and `[[1], [2]]` have two rows and agree
on their first row, `s = 1` is smaller than the number of rows and the buffer `[[0], [0]]`
has at least `s` entries; yet after `fill(matrix, 1)` the results of `evaluate<0>` differ for
the two matrices (row 1 has been read) and entry 1 of the buffer has been overwritten. -/
theorem C2_counterexample :
    (1 : Int) < ([[1], [1]] : List (List ℚ)).length
    ∧ List.take 1 ([[1], [1]] : List (List ℚ)) = List.take 1 [[1], [2]]
    ∧ 1 ≤ ([[0], [0]] : Buffer).length
    ∧ ∃ b1 b2 r1 r2,
        PolynomialBasisWithMatrix.fillSize (denseCoeffMatrix 1) constantBasis1d [[1], [1]] 1
          = some b1
        ∧ PolynomialBasisWithMatrix.fillSize (denseCoeffMatrix 1) constantBasis1d [[1], [2]] 1
          = some b2
        ∧ PolynomialBasis.evaluate (denseCoeffMatrix 1) (monomialEvaluator 1) 0 b1 [0]
          [[0], [0]] = some r1
        ∧ PolynomialBasis.evaluate (denseCoeffMatrix 1) (monomialEvaluator 1) 0 b2 [0]
          [[0], [0]] = some r2
        ∧ r1 ≠ r2
        ∧ r1[1]? ≠ ([[0], [0]] : Buffer)[1]? := by
  have h0 : monomials 1 0 = [[0]] := by decide
  have hu : toUnsigned 1 = 1 := by decide
  refine ⟨by decide, by simp, by decide,
    { constantBasis1d with coeffMatrix_ := [[1], [1]], size_ := 1 },
    { constantBasis1d with coeffMatrix_ := [[1], [2]], size_ := 1 },
    [[1], [1]], [[1], [2]], ?_, ?_, ?_, ?_, ?_, ?_⟩
  · simp [PolynomialBasisWithMatrix.fillSize, denseCoeffMatrix, hu]
  · simp [PolynomialBasisWithMatrix.fillSize, denseCoeffMatrix, hu]
  · simp [constantBasis1d, PolynomialBasisWithMatrix.create, PolynomialBasis.evaluate,
      denseCoeffMatrix, denseMult, denseEntry, monomialEvaluator, h0, monomialDerivative,
      PolynomialBasis.size, List.range_succ]
  · simp [constantBasis1d, PolynomialBasisWithMatrix.create, PolynomialBasis.evaluate,
      denseCoeffMatrix, denseMult, denseEntry, monomialEvaluator, h0, monomialDerivative,
      PolynomialBasis.size, List.range_succ]
  · simp
  · simp

/-- C2, amended: after `fill(matrix, s)` with a count `s` not larger than the number of
rows, `evaluate<deriv>` on a buffer with at least `s` entries passes its assertion and
returns what `mult` of the whole filled matrix makes of the whole buffer, whatever `s` is.
The rows read and the entries written are bounded by the length of the buffer: the result
has as many entries as the buffer and is the same for two matrices that agree on their first
`values.size()` rows. -/
theorem C2_evaluate_rows_by_buffer {Basis Ev Dom : Type} (dim : Nat)
    (ev : EvaluatorOps Basis Ev Dom (List (List ℚ))) (deriv : Nat)
    (b : PolynomialBasis (List (List ℚ)) Ev) (matrix matrix' : List (List ℚ)) (s : Int)
    (x : Dom) (values : Buffer)
    (h0 : 0 ≤ s) (hint : s < 2 ^ 31) (hs : s ≤ matrix.length) (hs' : s ≤ matrix'.length)
    (hv : s ≤ values.length)
    (hagree : matrix.take values.length = matrix'.take values.length) :
    ∃ b1 b2 r,
      PolynomialBasisWithMatrix.fillSize (denseCoeffMatrix dim) b matrix s = some b1
      ∧ PolynomialBasisWithMatrix.fillSize (denseCoeffMatrix dim) b matrix' s = some b2
      ∧ PolynomialBasis.evaluate (denseCoeffMatrix dim) ev deriv b1 x values = some r
      ∧ PolynomialBasis.evaluate (denseCoeffMatrix dim) ev deriv b2 x values = some r
      ∧ r = (denseCoeffMatrix dim).mult matrix (ev.evaluate deriv b.eval_ x) values
      ∧ r.length = values.length := by
  have hu := toUnsigned_of_nonneg s h0 hint
  have h1 : toUnsigned s ≤ matrix.length := by omega
  have h2 : toUnsigned s ≤ matrix'.length := by omega
  have h3 : toUnsigned s ≤ values.length := by omega
  refine ⟨{ b with coeffMatrix_ := matrix, size_ := toUnsigned s },
    { b with coeffMatrix_ := matrix', size_ := toUnsigned s },
    denseMult matrix (ev.evaluate deriv b.eval_ x) values, ?_, ?_, ?_, ?_, rfl, ?_⟩
  · simp only [PolynomialBasisWithMatrix.fillSize, denseCoeffMatrix]
    rw [if_pos h1]
  · simp only [PolynomialBasisWithMatrix.fillSize, denseCoeffMatrix]
    rw [if_pos h2]
  · simp only [PolynomialBasis.evaluate, PolynomialBasis.size, denseCoeffMatrix]
    rw [if_pos h3]
  · simp only [PolynomialBasis.evaluate, PolynomialBasis.size, denseCoeffMatrix]
    rw [if_pos h3, ← denseMult_take matrix', ← hagree, denseMult_take]
  · simp [denseCoeffMatrix, length_denseMult]

/-- C2, amended, at two matrices of two rows and a buffer of one entry. -/
theorem C2_evaluate_rows_by_buffer_witness :
    ∃ b1 b2 r,
      PolynomialBasisWithMatrix.fillSize (denseCoeffMatrix 1) constantBasis1d [[1], [1]] 1 = some b1
      ∧ PolynomialBasisWithMatrix.fillSize (denseCoeffMatrix 1) constantBasis1d [[1], [2]] 1
          = some b2
      ∧ PolynomialBasis.evaluate (denseCoeffMatrix 1) (monomialEvaluator 1) 0 b1 [0] [[0]] = some r
      ∧ PolynomialBasis.evaluate (denseCoeffMatrix 1) (monomialEvaluator 1) 0 b2 [0] [[0]] = some r
      ∧ r = (denseCoeffMatrix 1).mult [[1], [1]]
          ((monomialEvaluator 1).evaluate 0 constantBasis1d.eval_ [0]) [[0]]
      ∧ r.length = [[(0 : ℚ)]].length :=
  C2_evaluate_rows_by_buffer 1 (monomialEvaluator 1) 0 constantBasis1d [[1], [1]] [[1], [2]] 1
    [0] [[0]] (by decide) (by decide) (by decide) (by decide) (by decide) (by simp)

/-! ## Claim C3 -/

/-- C3: the order 0 overload `evaluate(x, values)` and `evaluateSingle<0>(x, values)` leave
the same contents in the buffer, and fail their assertion on the same buffers. -/
theorem C3_evaluate0_eq_evaluateSingle {CM FM Raw Basis Ev Dom : Type}
    (cm : CoeffMatrixOps CM FM Raw) (ev : EvaluatorOps Basis Ev Dom Raw)
    (b : PolynomialBasis CM Ev) (x : Dom) (values : Buffer) :
    PolynomialBasis.evaluate0 cm ev b x values
      = PolynomialBasis.evaluateSingle cm ev 0 b x values := rfl

/-! ## Claim C4 -/

/-- C4: after `fill` with the identity matrix (as many rows as the evaluator has monomials),
`size()` is the number of monomials and `evaluate<deriv>` at any point returns, for every
basis function, exactly the raw value of the evaluator for that monomial. In dimension 2,
order 1, at `(0.3, 0.4)` the result of `evaluate<0>` is `[1, 0.3, 0.4]`. -/
theorem C4_identity_reproduces_raw {Basis Ev Dom : Type} (dim : Nat)
    (ev : EvaluatorOps Basis Ev Dom (List (List ℚ))) (deriv : Nat)
    (b : PolynomialBasis (List (List ℚ)) Ev) (x : Dom) (values : Buffer)
    (hentries : List.Forall₂ (fun e v => e.length = v.length) values
      (ev.evaluate deriv b.eval_ x)) :
    (PolynomialBasisWithMatrix.fill (denseCoeffMatrix dim) b
        (identityMatrix (ev.evaluate deriv b.eval_ x).length)).size
      = (ev.evaluate deriv b.eval_ x).length
    ∧ PolynomialBasis.evaluate (denseCoeffMatrix dim) ev deriv
        (PolynomialBasisWithMatrix.fill (denseCoeffMatrix dim) b
          (identityMatrix (ev.evaluate deriv b.eval_ x).length)) x values
      = some (ev.evaluate deriv b.eval_ x)
    ∧ PolynomialBasis.evaluate (denseCoeffMatrix 2) (monomialEvaluator 2) 0
        (PolynomialBasisWithMatrix.fill (denseCoeffMatrix 2) linearBasis2d (identityMatrix 3))
        [3 / 10, 4 / 10] [[0], [0], [0]]
      = some [[1], [3 / 10], [4 / 10]] := by
  have hlen := hentries.length_eq
  refine ⟨?_, ?_, ?_⟩
  · simp [PolynomialBasisWithMatrix.fill, PolynomialBasis.size, denseCoeffMatrix, identityMatrix]
  · have hsz : (PolynomialBasisWithMatrix.fill (denseCoeffMatrix dim) b
        (identityMatrix (ev.evaluate deriv b.eval_ x).length)).size ≤ values.length := by
      simp [PolynomialBasisWithMatrix.fill, PolynomialBasis.size, denseCoeffMatrix,
        identityMatrix, hlen]
    simp only [PolynomialBasis.evaluate]
    rw [if_pos hsz]
    simp only [PolynomialBasisWithMatrix.fill, denseCoeffMatrix]
    rw [denseMult_identity _ _ hentries]
  · have h1 : monomials 2 1 = [[0, 0], [1, 0], [0, 1]] := by decide
    have h0 : monomials 2 0 = [[0, 0]] := by decide
    simp [PolynomialBasisWithMatrix.fill, linearBasis2d, PolynomialBasisWithMatrix.create,
      PolynomialBasis.evaluate, denseCoeffMatrix, denseMult, denseEntry, monomialEvaluator, h0,
      h1, monomialDerivative, PolynomialBasis.size, List.range_succ, identityMatrix]

/-- C4 at the monomials `1`, `x`, `y` and the point `(0.3, 0.4)`, with the identity of three
rows. -/
theorem C4_identity_reproduces_raw_witness :
    PolynomialBasis.evaluate (denseCoeffMatrix 2) (monomialEvaluator 2) 0
        (PolynomialBasisWithMatrix.fill (denseCoeffMatrix 2) linearBasis2d
          (identityMatrix ((monomialEvaluator 2).evaluate 0 linearBasis2d.eval_
            [3 / 10, 4 / 10]).length)) [3 / 10, 4 / 10] [[0], [0], [0]]
      = some ((monomialEvaluator 2).evaluate 0 linearBasis2d.eval_ [3 / 10, 4 / 10]) :=
  (C4_identity_reproduces_raw 2 (monomialEvaluator 2) 0 linearBasis2d [3 / 10, 4 / 10]
    [[0], [0], [0]] (by
      have h1 : monomials 2 1 = [[0, 0], [1, 0], [0, 1]] := by decide
      have h0 : monomials 2 0 = [[0, 0]] := by decide
      simp [monomialEvaluator, linearBasis2d, PolynomialBasisWithMatrix.create, h0, h1])).2.1

/-! ## Claim C6 -/

/-- C6: the constructor of `MonomLocalInterpolation` throws if and only if the template
parameter `size` differs from `lb.size()`; when it throws, the local basis has not been
evaluated at any point; when the sizes match it returns the interpolation with the inverted
mass matrix, having evaluated the basis at the points of the quadrature rule. -/
theorem C6_construction_size_check {BT D : Type} (size : Nat)
    (rule : BT → Nat → List (QuadraturePoint D))
    (invert : Matrix (Fin size) (Fin size) ℚ → Matrix (Fin size) (Fin size) ℚ)
    (bt : BT) (lb : LocalBasis D) :
    ((∃ e, (MonomLocalInterpolation.create size rule invert bt lb).result = .error e)
        ↔ size ≠ lb.size)
      ∧ ((∃ e, (MonomLocalInterpolation.create size rule invert bt lb).result = .error e) →
          (MonomLocalInterpolation.create size rule invert bt lb).evaluated = []
          ∧ (MonomLocalInterpolation.create size rule invert bt lb).result
            = .error "size template parameter does not match size of local basis")
      ∧ (size = lb.size →
          (MonomLocalInterpolation.create size rule invert bt lb).evaluated
            = (rule bt (2 * lb.order)).map (·.position)
          ∧ (MonomLocalInterpolation.create size rule invert bt lb).result
            = .ok { bt := bt, lb := lb, qr := rule bt (2 * lb.order),
                    Minv := invert
                      (MonomLocalInterpolation.assemble size lb (rule bt (2 * lb.order))).2 }) := by
  by_cases h : size = lb.size
  · have hne : ¬ (size ≠ lb.size) := by simpa using h
    have hr : MonomLocalInterpolation.create size rule invert bt lb
        = ⟨(MonomLocalInterpolation.assemble size lb (rule bt (2 * lb.order))).1,
            .ok ⟨bt, lb,
              invert (MonomLocalInterpolation.assemble size lb (rule bt (2 * lb.order))).2,
              rule bt (2 * lb.order)⟩⟩ := by
      unfold MonomLocalInterpolation.create
      simp only
      rw [if_neg hne]
    rw [hr]
    have hno : ¬ ∃ e, (Except.ok ⟨bt, lb,
        invert (MonomLocalInterpolation.assemble size lb (rule bt (2 * lb.order))).2,
        rule bt (2 * lb.order)⟩ : Except String (MonomLocalInterpolation BT D size))
          = .error e := by
      rintro ⟨e, he⟩
      cases he
    exact ⟨⟨fun he => absurd he hno, fun hne' => absurd h hne'⟩, fun he => absurd he hno,
      fun _ => ⟨assemble_evaluated _ _ _, rfl⟩⟩
  · have hr : MonomLocalInterpolation.create size rule invert bt lb
        = ⟨[], .error "size template parameter does not match size of local basis"⟩ := by
      unfold MonomLocalInterpolation.create
      simp only
      rw [if_pos h]
    rw [hr]
    exact ⟨⟨fun _ => h, fun _ => ⟨_, rfl⟩⟩, fun _ => ⟨rfl, rfl⟩, fun h' => absurd h' h⟩

/-- C6 for the basis `1`, `x`: with the template parameter 3 the constructor throws without
evaluating the basis, with the template parameter 2 it evaluates it at the three points of
Simpson's rule. -/
theorem C6_construction_size_check_witness :
    ((MonomLocalInterpolation.create 3 simpsonRule cramerInverse BasicType.simplex
          linearBasis1d).evaluated = []
        ∧ (MonomLocalInterpolation.create 3 simpsonRule cramerInverse BasicType.simplex
          linearBasis1d).result
          = .error "size template parameter does not match size of local basis")
      ∧ (MonomLocalInterpolation.create 2 simpsonRule cramerInverse BasicType.simplex
          linearBasis1d).evaluated = [0, 1 / 2, 1] :=
  ⟨(C6_construction_size_check 3 simpsonRule cramerInverse BasicType.simplex linearBasis1d).2.1
      ((C6_construction_size_check 3 simpsonRule cramerInverse BasicType.simplex
        linearBasis1d).1.2 (by decide)),
    ((C6_construction_size_check 2 simpsonRule cramerInverse BasicType.simplex linearBasis1d).2.2
      rfl).1⟩

/-! ## Claim C7 -/

section Claims

variable {CM FM Raw Basis Ev Dom A S : Type}

/-- C7: every evaluation operation of `PolynomialBasis` fails its assertion exactly when the
output buffer has fewer than `size()` entries, and returns the result of the coefficient
transform exactly when the buffer has at least `size()` entries. -/
theorem C7_assertion_iff_buffer_too_small (cm : CoeffMatrixOps CM FM Raw)
    (ev : EvaluatorOps Basis Ev Dom Raw) (deriv : Nat) (b : PolynomialBasis CM Ev) (x : Dom)
    (values : Buffer) (svalues : StructuredBuffer) :
    ((PolynomialBasis.evaluate cm ev deriv b x values = none ↔ values.length < b.size)
      ∧ (PolynomialBasis.evaluate cm ev deriv b x values
          = some (cm.mult b.coeffMatrix_ (ev.evaluate deriv b.eval_ x) values)
        ↔ b.size ≤ values.length))
    ∧ ((PolynomialBasis.evaluateSingle cm ev deriv b x values = none ↔ values.length < b.size)
      ∧ (PolynomialBasis.evaluateSingle cm ev deriv b x values
          = some (cm.multSingle deriv b.coeffMatrix_ (ev.evaluate deriv b.eval_ x) values)
        ↔ b.size ≤ values.length))
    ∧ ((PolynomialBasis.evaluateSingleNested cm ev deriv b x svalues = none
        ↔ svalues.length < b.size)
      ∧ (PolynomialBasis.evaluateSingleNested cm ev deriv b x svalues
          = some ((cm.multSingle deriv b.coeffMatrix_ (ev.evaluate deriv b.eval_ x)
              (svalues.map List.flatten)).map
                (reshape (PolynomialBasis.dimRange cm ev) (tensorSize ev.dimension deriv)))
        ↔ b.size ≤ svalues.length))
    ∧ ((PolynomialBasis.evaluateSingleTensor cm ev deriv b x svalues = none
        ↔ svalues.length < b.size)
      ∧ (PolynomialBasis.evaluateSingleTensor cm ev deriv b x svalues
          = some ((cm.multSingle deriv b.coeffMatrix_ (ev.evaluate deriv b.eval_ x)
              (svalues.map List.flatten)).map
                (reshape (PolynomialBasis.dimRange cm ev) (tensorSize ev.dimension deriv)))
        ↔ b.size ≤ svalues.length))
    ∧ ((PolynomialBasis.jacobian cm ev b x svalues = none ↔ svalues.length < b.size)
      ∧ (PolynomialBasis.jacobian cm ev b x svalues
          = some ((cm.multSingle 1 b.coeffMatrix_ (ev.evaluate 1 b.eval_ x)
              (svalues.map List.flatten)).map
                (reshape (PolynomialBasis.dimRange cm ev) ev.dimension))
        ↔ b.size ≤ svalues.length))
    ∧ ((PolynomialBasis.evaluate0 cm ev b x values = none ↔ values.length < b.size)
      ∧ (PolynomialBasis.evaluate0 cm ev b x values
          = some (cm.multSingle 0 b.coeffMatrix_ (ev.evaluate 0 b.eval_ x) values)
        ↔ b.size ≤ values.length))
    ∧ ((PolynomialBasis.integrate cm ev b values = none ↔ values.length < b.size)
      ∧ (PolynomialBasis.integrate cm ev b values
          = some (cm.mult b.coeffMatrix_ (ev.integrate b.eval_) values)
        ↔ b.size ≤ values.length)) := by
  have hlen : (svalues.map List.flatten).length = svalues.length := List.length_map _ _
  refine ⟨?_, ?_, ?_, ?_, ?_, ?_, ?_⟩
  · have h := assert_some_iff (b.size ≤ values.length)
      (cm.mult b.coeffMatrix_ (ev.evaluate deriv b.eval_ x) values)
    exact ⟨h.1.trans Nat.not_le, h.2⟩
  · have h := assert_some_iff (b.size ≤ values.length)
      (cm.multSingle deriv b.coeffMatrix_ (ev.evaluate deriv b.eval_ x) values)
    exact ⟨h.1.trans Nat.not_le, h.2⟩
  · have h := assert_map_some_iff (b.size ≤ (svalues.map List.flatten).length)
      (cm.multSingle deriv b.coeffMatrix_ (ev.evaluate deriv b.eval_ x)
        (svalues.map List.flatten))
      (fun flat => flat.map
        (reshape (PolynomialBasis.dimRange cm ev) (tensorSize ev.dimension deriv)))
    exact ⟨h.1.trans (by rw [hlen, Nat.not_le]), h.2.trans (by rw [hlen])⟩
  · have h := assert_map_some_iff (b.size ≤ (svalues.map List.flatten).length)
      (cm.multSingle deriv b.coeffMatrix_ (ev.evaluate deriv b.eval_ x)
        (svalues.map List.flatten))
      (fun flat => flat.map
        (reshape (PolynomialBasis.dimRange cm ev) (tensorSize ev.dimension deriv)))
    exact ⟨h.1.trans (by rw [hlen, Nat.not_le]), h.2.trans (by rw [hlen])⟩
  · have h := assert_map_some_iff (b.size ≤ (svalues.map List.flatten).length)
      (cm.multSingle 1 b.coeffMatrix_ (ev.evaluate 1 b.eval_ x) (svalues.map List.flatten))
      (fun flat => flat.map (reshape (PolynomialBasis.dimRange cm ev) ev.dimension))
    rw [jacobian_eq_map]
    exact ⟨h.1.trans (by rw [hlen, Nat.not_le]), h.2.trans (by rw [hlen])⟩
  · have h := assert_some_iff (b.size ≤ values.length)
      (cm.multSingle 0 b.coeffMatrix_ (ev.evaluate 0 b.eval_ x) values)
    exact ⟨h.1.trans Nat.not_le, h.2⟩
  · have h := assert_some_iff (b.size ≤ values.length)
      (cm.mult b.coeffMatrix_ (ev.integrate b.eval_) values)
    exact ⟨h.1.trans Nat.not_le, h.2⟩

/-! ## Claim C8 -/

/-- C8: the constructor of `PolynomialBasisWithMatrix` passes the assertion of the base
constructor, and a base constructor that returns leaves `size()` at most the number of rows
of its coefficient matrix. In every state reached from the constructor by a sequence of
`fill(matrix)` and `fill(matrix, s)` calls whose assertions pass, `size()` is at most the
number of rows of the owned coefficient matrix; and in such a state `fill(matrix, s)` fails
its assertion whenever the `int` `s` exceeds the number of rows of the matrix just filled. -/
theorem C8_size_le_rows (cm : CoeffMatrixOps CM FM Raw) (ev : EvaluatorOps Basis Ev Dom Raw)
    (basis : Basis) (calls : List (FillCall FM)) (b : PolynomialBasis CM Ev)
    (hrun : PolynomialBasisWithMatrix.run cm (PolynomialBasisWithMatrix.create cm ev basis) calls
      = some b) :
    PolynomialBasis.create cm ev basis cm.empty 0
        = some (PolynomialBasisWithMatrix.create cm ev basis)
      ∧ (∀ (coeffMatrix : CM) (size : Nat) (b0 : PolynomialBasis CM Ev),
          PolynomialBasis.create cm ev basis coeffMatrix size = some b0 →
          b0.size ≤ cm.size b0.coeffMatrix_)
      ∧ b.size ≤ cm.size b.coeffMatrix_
      ∧ ∀ (matrix : FM) (s : Int), s < 2 ^ 31 →
          (cm.size (cm.fill b.coeffMatrix_ matrix) : Int) < s →
          PolynomialBasisWithMatrix.fillSize cm b matrix s = none := by
  refine ⟨?_, ?_, run_size_le cm calls _ b (Nat.zero_le _) hrun, ?_⟩
  · simp [PolynomialBasis.create, PolynomialBasisWithMatrix.create]
  · intro coeffMatrix size b0 h0
    simp only [PolynomialBasis.create] at h0
    split at h0
    · rename_i hle
      simp only [Option.some.injEq] at h0
      subst h0
      exact hle
    · cases h0
  intro matrix s hint hs
  have h0 : 0 ≤ s := by omega
  have hu := toUnsigned_of_nonneg s h0 hint
  simp only [PolynomialBasisWithMatrix.fillSize]
  rw [if_neg (by omega)]

/-- C8 for `fill` with the identity of three rows followed by `fill` with the same matrix
and `s = 2`: the size 2 is at most the three rows, and `s = 4` fails the assertion. -/
theorem C8_size_le_rows_witness :
    PolynomialBasis.size
        (⟨identityMatrix 3, ⟨1⟩, 1, 2⟩ : PolynomialBasis (List (List ℚ)) MonomialBasis)
      ≤ (denseCoeffMatrix 2).size (identityMatrix 3)
    ∧ PolynomialBasisWithMatrix.fillSize (denseCoeffMatrix 2)
        (⟨identityMatrix 3, ⟨1⟩, 1, 2⟩ : PolynomialBasis (List (List ℚ)) MonomialBasis)
        (identityMatrix 3) 4 = none :=
  have h := C8_size_le_rows (denseCoeffMatrix 2) (monomialEvaluator 2) ⟨1⟩
    [.fill (identityMatrix 3), .fillSize (identityMatrix 3) 2]
    ⟨identityMatrix 3, ⟨1⟩, 1, 2⟩ rfl
  ⟨h.2.2.1, h.2.2.2 (identityMatrix 3) 4 (by decide) (by decide)⟩

/-! ## Claim C9 -/

/-- C9: when its assertion passes, `jacobian(x, values)` returns the flat buffer of
`evaluateSingle<1>` reshaped as one `dimRange × dimension` matrix per basis function: entry
`[r][d]` of matrix `i` is entry `r*dimension + d` of element `i` of the flat buffer, the
matrix has the scalars of the flat element when that has `dimRange*dimension` of them, and
the derivative tensor of order 1 has `dimension` components. -/
theorem C9_jacobian_is_reshaped_evaluateSingle (cm : CoeffMatrixOps CM FM Raw)
    (ev : EvaluatorOps Basis Ev Dom Raw) (b : PolynomialBasis CM Ev) (x : Dom)
    (values : StructuredBuffer) (hsize : b.size ≤ values.length) :
    ∃ J flat,
      PolynomialBasis.jacobian cm ev b x values = some J
      ∧ PolynomialBasis.evaluateSingle cm ev 1 b x (values.map List.flatten) = some flat
      ∧ J.length = flat.length
      ∧ (∀ (i r d : Nat) (e : List ℚ), flat[i]? = some e →
          r < PolynomialBasis.dimRange cm ev → d < ev.dimension →
          ∃ m, J[i]? = some m
            ∧ m.length = PolynomialBasis.dimRange cm ev
            ∧ (m[r]?.bind fun row => row[d]?) = e[r * ev.dimension + d]?
            ∧ (e.length = PolynomialBasis.dimRange cm ev * ev.dimension → m.flatten = e))
      ∧ tensorSize ev.dimension 1 = ev.dimension
      ∧ PolynomialBasis.evaluateSingleTensor cm ev 1 b x values = some J := by
  have hlen : b.size ≤ (values.map List.flatten).length := by simpa using hsize
  refine ⟨(cm.multSingle 1 b.coeffMatrix_ (ev.evaluate 1 b.eval_ x)
      (values.map List.flatten)).map (reshape (PolynomialBasis.dimRange cm ev) ev.dimension),
    cm.multSingle 1 b.coeffMatrix_ (ev.evaluate 1 b.eval_ x) (values.map List.flatten),
    ?_, ?_, ?_, ?_, tensorSize_one _, ?_⟩
  · simp only [PolynomialBasis.jacobian, PolynomialBasis.evaluateSingle]
    rw [if_pos hsize, if_pos hlen]
    rfl
  · simp only [PolynomialBasis.evaluateSingle]
    rw [if_pos hlen]
  · simp
  · intro i r d e he hr hd
    refine ⟨reshape (PolynomialBasis.dimRange cm ev) ev.dimension e, ?_, length_reshape _ _ _,
      reshape_entry _ _ _ _ _ hr hd, ?_⟩
    · simp [List.getElem?_map, he]
    · intro hlen'
      rw [flatten_reshape, ← hlen', List.take_length]
  · simp only [PolynomialBasis.evaluateSingleTensor, PolynomialBasis.evaluateSingle]
    rw [if_pos hlen, tensorSize_one]
    rfl

/-- C9 for the monomials `1`, `x`, `y` with the identity matrix at `(0.3, 0.4)` and a
buffer of three `1 × 2` matrices. -/
theorem C9_jacobian_is_reshaped_evaluateSingle_witness :
    identityBasis2d.size ≤ 3
    ∧ ∃ J flat,
      PolynomialBasis.jacobian (denseCoeffMatrix 2) (monomialEvaluator 2) identityBasis2d
        [3 / 10, 4 / 10] [[[0, 0]], [[0, 0]], [[0, 0]]] = some J
      ∧ PolynomialBasis.evaluateSingle (denseCoeffMatrix 2) (monomialEvaluator 2) 1
        identityBasis2d [3 / 10, 4 / 10] [[0, 0], [0, 0], [0, 0]] = some flat
      ∧ J.length = flat.length := by
  obtain ⟨J, flat, h1, h2, h3, _⟩ :=
    C9_jacobian_is_reshaped_evaluateSingle (denseCoeffMatrix 2) (monomialEvaluator 2)
      identityBasis2d [3 / 10, 4 / 10] [[[0, 0]], [[0, 0]], [[0, 0]]] (by decide)
  exact ⟨by decide, J, flat, h1, h2, h3⟩

/-! ## Claim C10 -/

/-- C10: on a point with `dimension` coordinates, the generic-coordinate overloads
`evaluate<deriv>(x, values)` and `evaluate(x, values)` give what the native
`evaluate<deriv>`, `evaluate<0>` and the native order 0 overload give on the point whose
coordinates are the field casts of those of `x`. -/
theorem C10_generic_coordinates (dim : Nat)
    (ev : EvaluatorOps Basis Ev (List S) (List (List ℚ))) (deriv : Nat) (field_cast : A → S)
    (b : PolynomialBasis (List (List ℚ)) Ev) (x : List A) (values : Buffer)
    (hx : x.length = ev.dimension)
    (hraw : ∀ v ∈ ev.evaluate 0 b.eval_ (x.map field_cast), v.length = tensorSize dim 0) :
    PolynomialBasis.evaluateGeneric (denseCoeffMatrix dim) ev deriv field_cast b x values
        = PolynomialBasis.evaluate (denseCoeffMatrix dim) ev deriv b (x.map field_cast) values
      ∧ PolynomialBasis.evaluateGeneric0 (denseCoeffMatrix dim) ev field_cast b x values
        = PolynomialBasis.evaluate (denseCoeffMatrix dim) ev 0 b (x.map field_cast) values
      ∧ PolynomialBasis.evaluateGeneric0 (denseCoeffMatrix dim) ev field_cast b x values
        = PolynomialBasis.evaluate0 (denseCoeffMatrix dim) ev b (x.map field_cast) values := by
  refine ⟨evaluateGeneric_eq_evaluate _ ev deriv field_cast b x values hx,
    evaluateGeneric0_eq_evaluate _ ev field_cast b x values hx, ?_⟩
  rw [evaluateGeneric0_eq_evaluate _ ev field_cast b x values hx]
  unfold PolynomialBasis.evaluate0 PolynomialBasis.evaluateSingle PolynomialBasis.evaluate
  rw [denseCoeffMatrix_multSingle_zero dim _ _ _ hraw]

/-- C10 for the monomials `1`, `x`, `y` with the identity matrix and the integer point
`(1, 2)`. -/
theorem C10_generic_coordinates_witness :
    PolynomialBasis.evaluateGeneric0 (denseCoeffMatrix 2) (monomialEvaluator 2)
        (fun a : Int => (a : ℚ)) identityBasis2d [1, 2] [[0], [0], [0]]
      = PolynomialBasis.evaluate0 (denseCoeffMatrix 2) (monomialEvaluator 2) identityBasis2d
        ([1, 2].map fun a : Int => (a : ℚ)) [[0], [0], [0]] :=
  (C10_generic_coordinates 2 (monomialEvaluator 2) 0 (fun a : Int => (a : ℚ)) identityBasis2d
    [1, 2] [[0], [0], [0]] rfl (by
      have h0 : monomials 2 0 = [[0, 0]] := by decide
      simp [monomialEvaluator, h0, tensorSize])).2.2

end Claims

/-! ## Claim C11 -/

/-- C11: for every orientation set `s`, every `i < 8` and `r, c < 2`, the entry
`out[i][r][c]` of `evaluateJacobian` is the partial derivative with respect to coordinate
`c` of component `r` of shape function `i` of `evaluateFunction`, taken as a polynomial in
`(x, y)`: as an identity of polynomials, and at every point `p`, where the polynomial of
the component evaluates to the value that `evaluateFunction` returns. -/
theorem C11_jacobian_is_derivative (s : Nat) (p : Fin 2 → ℚ) (i : Fin 8) (r c : Fin 2) :
    jacobianEntry ((BDM1Cube2DLocalBasis.ofBitset s :
        BDM1Cube2DLocalBasis (MvPolynomial (Fin 2) ℚ)).evaluateJacobian MvPolynomial.X) i r c
      = MvPolynomial.pderiv c (shapeComponent ((BDM1Cube2DLocalBasis.ofBitset s :
        BDM1Cube2DLocalBasis (MvPolynomial (Fin 2) ℚ)).evaluateFunction MvPolynomial.X) i r)
    ∧ MvPolynomial.eval p (shapeComponent ((BDM1Cube2DLocalBasis.ofBitset s :
        BDM1Cube2DLocalBasis (MvPolynomial (Fin 2) ℚ)).evaluateFunction MvPolynomial.X) i r)
      = shapeComponent ((BDM1Cube2DLocalBasis.ofBitset s :
        BDM1Cube2DLocalBasis ℚ).evaluateFunction p) i r
    ∧ jacobianEntry ((BDM1Cube2DLocalBasis.ofBitset s :
        BDM1Cube2DLocalBasis ℚ).evaluateJacobian p) i r c
      = MvPolynomial.eval p (MvPolynomial.pderiv c (shapeComponent
          ((BDM1Cube2DLocalBasis.ofBitset s :
            BDM1Cube2DLocalBasis (MvPolynomial (Fin 2) ℚ)).evaluateFunction MvPolynomial.X)
          i r)) := by
  have h1 := jacobian_eq_pderiv (BDM1Cube2DLocalBasis.ofBitset s) (pderiv_sign s) i r c
  refine ⟨h1, eval_shapeComponent _ _ p (fun e => eval_sign s e p) i r, ?_⟩
  rw [← h1, eval_jacobianEntry _ _ p (fun e => eval_sign s e p) i r c]

/-! ## Claim C12 -/

/-- C12: whatever the output vector held before the call, `interpolate` of a constructed
`MonomLocalInterpolation` leaves it with exactly `size` entries, `size` being `lb.size()`,
and `interpolate` of `P0LocalInterpolation` leaves it with exactly one entry, the value of
`f` at `position(0,0)` of the reference element. -/
theorem C12_interpolate_length {BT D : Type} {size : Nat}
    (rule : BT → Nat → List (QuadraturePoint D))
    (invert : Matrix (Fin size) (Fin size) ℚ → Matrix (Fin size) (Fin size) ℚ)
    (bt : BT) (lb : LocalBasis D) (I : MonomLocalInterpolation BT D size)
    (position : GeometryType BT → Nat → Nat → D) (P : P0LocalInterpolation BT)
    (f : D → ℚ) (out : List ℚ)
    (hcreate : (MonomLocalInterpolation.create size rule invert bt lb).result = .ok I) :
    (I.interpolate f out).length = size
      ∧ size = I.lb.size
      ∧ I.lb = lb
      ∧ P.interpolate position f out = [f (position P.gt 0 0)]
      ∧ (P.interpolate position f out).length = 1 := by
  have hlen : (I.interpolate f out).length = size := by
    unfold MonomLocalInterpolation.interpolate
    rw [interpolate_fold I.Minv I.lb f I.qr _ (by simp)]
    simp
  have hP : P.interpolate position f out = [f (position P.gt 0 0)] := by
    unfold P0LocalInterpolation.interpolate vectorResize
    cases out with
    | nil => simp
    | cons a t => simp
  unfold MonomLocalInterpolation.create at hcreate
  simp only at hcreate
  split at hcreate
  · cases hcreate
  · rename_i hsize
    have hsize' : size = lb.size := by simpa using hsize
    simp only [Except.ok.injEq] at hcreate
    subst hcreate
    exact ⟨hlen, hsize', rfl, hP, by rw [hP]; rfl⟩

/-- C12 for the basis `1`, `x` with Simpson's rule and for the P0 interpolation on the
interval with midpoint `1/2`, on an output vector that held three entries. -/
theorem C12_interpolate_length_witness :
    ∃ I, (MonomLocalInterpolation.create 2 simpsonRule cramerInverse BasicType.simplex
        linearBasis1d).result = .ok I
      ∧ (I.interpolate (fun x => x * x) [7, 7, 7]).length = 2
      ∧ (P0LocalInterpolation.create BasicType.simplex 1).interpolate
          (fun _ _ _ => (1 / 2 : ℚ)) (fun x => x * x) [7, 7, 7] = [(1 / 2 : ℚ) * (1 / 2)] :=
  have h := @C12_interpolate_length BasicType ℚ 2 simpsonRule cramerInverse BasicType.simplex
    linearBasis1d _ (fun _ _ _ => (1 / 2 : ℚ)) (P0LocalInterpolation.create BasicType.simplex 1)
    (fun x => x * x) [7, 7, 7] rfl
  ⟨_, rfl, h.1, h.2.2.2.1⟩

/-! ## Claim C13 -/

/-- C13: the orientation set only flips signs. For every `s`, every point and every edge
`e < 4`, shape function `2e` and its Jacobian are those of the default constructed basis
times `-1` if bit `e` of `s` is set and times `+1` otherwise; shape functions `2e + 1` and
their Jacobians are the same for any two sets `s`, `s2`; and the set `0` gives the default
constructed basis. -/
theorem C13_orientation_flips_sign (s s2 : Nat) (p : Fin 2 → ℚ) (e : Fin 4) (r c : Fin 2) :
    shapeComponent ((BDM1Cube2DLocalBasis.ofBitset s :
        BDM1Cube2DLocalBasis ℚ).evaluateFunction p) (2 * e) r
      = (if s.testBit e then -1 else 1)
        * shapeComponent ((BDM1Cube2DLocalBasis.standard :
            BDM1Cube2DLocalBasis ℚ).evaluateFunction p) (2 * e) r
    ∧ jacobianEntry ((BDM1Cube2DLocalBasis.ofBitset s :
        BDM1Cube2DLocalBasis ℚ).evaluateJacobian p) (2 * e) r c
      = (if s.testBit e then -1 else 1)
        * jacobianEntry ((BDM1Cube2DLocalBasis.standard :
            BDM1Cube2DLocalBasis ℚ).evaluateJacobian p) (2 * e) r c
    ∧ shapeComponent ((BDM1Cube2DLocalBasis.ofBitset s :
        BDM1Cube2DLocalBasis ℚ).evaluateFunction p) (2 * e + 1) r
      = shapeComponent ((BDM1Cube2DLocalBasis.ofBitset s2 :
        BDM1Cube2DLocalBasis ℚ).evaluateFunction p) (2 * e + 1) r
    ∧ jacobianEntry ((BDM1Cube2DLocalBasis.ofBitset s :
        BDM1Cube2DLocalBasis ℚ).evaluateJacobian p) (2 * e + 1) r c
      = jacobianEntry ((BDM1Cube2DLocalBasis.ofBitset s2 :
        BDM1Cube2DLocalBasis ℚ).evaluateJacobian p) (2 * e + 1) r c
    ∧ (BDM1Cube2DLocalBasis.ofBitset 0 : BDM1Cube2DLocalBasis ℚ)
      = BDM1Cube2DLocalBasis.standard := by
  have h3 : ((3 : Fin 4) : ℕ) = 3 := rfl
  refine ⟨?_, ?_, ?_, ?_, ?_⟩
  · fin_cases e <;> fin_cases r <;>
      simp [shapeComponent, BDM1Cube2DLocalBasis.evaluateFunction,
        BDM1Cube2DLocalBasis.ofBitset, BDM1Cube2DLocalBasis.standard, h3]
  · fin_cases e <;> fin_cases r <;> fin_cases c <;>
      simp [jacobianEntry, BDM1Cube2DLocalBasis.evaluateJacobian,
        BDM1Cube2DLocalBasis.ofBitset, BDM1Cube2DLocalBasis.standard, h3]
  · fin_cases e <;> fin_cases r <;>
      simp [shapeComponent, BDM1Cube2DLocalBasis.evaluateFunction]
  · fin_cases e <;> fin_cases r <;> fin_cases c <;>
      simp [jacobianEntry, BDM1Cube2DLocalBasis.evaluateJacobian]
  · simp [BDM1Cube2DLocalBasis.ofBitset, BDM1Cube2DLocalBasis.standard]

/-! ## Claim C14 -/

/-- C14: with the edges of the unit square numbered `x = 0`, `x = 1`, `y = 0`, `y = 1`, the
shape functions `2e` and `2e + 1` of edge `e` have no normal component on the three other
edges: component 0 vanishes at the points `(0, t)` and `(1, t)` of the other edges with
constant `x`, component 1 at the points `(t, 0)` and `(t, 1)` of the other edges with
constant `y`, for every orientation set `s` and every `t`. -/
theorem C14_normal_component_on_own_edge (s : Nat) (t : ℚ) (k : Fin 2) :
    (shapeComponent ((BDM1Cube2DLocalBasis.ofBitset s :
          BDM1Cube2DLocalBasis ℚ).evaluateFunction ![1, t]) (0 + k) 0 = 0
      ∧ shapeComponent ((BDM1Cube2DLocalBasis.ofBitset s :
          BDM1Cube2DLocalBasis ℚ).evaluateFunction ![t, 0]) (0 + k) 1 = 0
      ∧ shapeComponent ((BDM1Cube2DLocalBasis.ofBitset s :
          BDM1Cube2DLocalBasis ℚ).evaluateFunction ![t, 1]) (0 + k) 1 = 0)
    ∧ (shapeComponent ((BDM1Cube2DLocalBasis.ofBitset s :
          BDM1Cube2DLocalBasis ℚ).evaluateFunction ![0, t]) (2 + k) 0 = 0
      ∧ shapeComponent ((BDM1Cube2DLocalBasis.ofBitset s :
          BDM1Cube2DLocalBasis ℚ).evaluateFunction ![t, 0]) (2 + k) 1 = 0
      ∧ shapeComponent ((BDM1Cube2DLocalBasis.ofBitset s :
          BDM1Cube2DLocalBasis ℚ).evaluateFunction ![t, 1]) (2 + k) 1 = 0)
    ∧ (shapeComponent ((BDM1Cube2DLocalBasis.ofBitset s :
          BDM1Cube2DLocalBasis ℚ).evaluateFunction ![0, t]) (4 + k) 0 = 0
      ∧ shapeComponent ((BDM1Cube2DLocalBasis.ofBitset s :
          BDM1Cube2DLocalBasis ℚ).evaluateFunction ![1, t]) (4 + k) 0 = 0
      ∧ shapeComponent ((BDM1Cube2DLocalBasis.ofBitset s :
          BDM1Cube2DLocalBasis ℚ).evaluateFunction ![t, 1]) (4 + k) 1 = 0)
    ∧ (shapeComponent ((BDM1Cube2DLocalBasis.ofBitset s :
          BDM1Cube2DLocalBasis ℚ).evaluateFunction ![0, t]) (6 + k) 0 = 0
      ∧ shapeComponent ((BDM1Cube2DLocalBasis.ofBitset s :
          BDM1Cube2DLocalBasis ℚ).evaluateFunction ![1, t]) (6 + k) 0 = 0
      ∧ shapeComponent ((BDM1Cube2DLocalBasis.ofBitset s :
          BDM1Cube2DLocalBasis ℚ).evaluateFunction ![t, 0]) (6 + k) 1 = 0) := by
  fin_cases k <;>
    simp [shapeComponent, BDM1Cube2DLocalBasis.evaluateFunction]

end Dune
